import Mathlib

/-!
# ascii_converter: a shallow embedding of `src/main.cpp`

The program reads one line of text and, for every character, prints the
long-division derivation of its code in binary, octal and hexadecimal together
with the reverse reconstruction, followed by a four-line summary.

## Modelling conventions

* A C++ `char` is represented by the `int` it promotes to (`CChar := Int`).
  The values of the program's `char` are the codes from -128 to 255
  (`isChar`): an 8-bit `char`, signed or unsigned.  A `std::string` is the list
  of its characters (`CString`).  String literals of the source are written
  `lit "..."`, character literals `ch 'x'`.
* `/` and `%` of the source are the truncating `Int.tdiv` and `Int.tmod`.
  The addition of `int` wraps around modulo `2^32` (`wrapInt`); the range of a
  32-bit `int` is `inIntRange`.
* `std::to_string(int)` and `operator<<(std::ostream&, int)` are the decimal
  rendering `to_string`.
* A `double` is an integer held exactly, an infinity or a NaN (`CDouble`).
  `std::pow(b, p)` for `b` in 2, 8, 16 is the exact power while it is below
  `2^1024` and plus infinity from there on; a product overflows to an infinity
  likewise, and `0 * infinity` is a NaN.  The conversion of a `double` to `int`
  is the value itself inside the range of `int`; outside it, and for an
  infinity or a NaN, C++ leaves it undefined and the model takes what the
  x86-64 conversion instruction returns, `INT_MIN`.
* Standard output is the list of the texts written by the successive output
  statements (`Output`); the bytes written are its concatenation
  (`List.flatten`).
* Standard input is the list of the lines `std::getline` returns, in order,
  each without its end of line.  Once the input is exhausted `std::getline`
  leaves `text` empty for ever, so the loop of `main` does not terminate; the
  model has no result (`none`) there.
-/

namespace AsciiConverter

/-! ## Characters and strings -/

/-- A C++ `char`, represented by the integer it promotes to; the values of
the program's `char` are those of `isChar`. -/
abbrev CChar := Int

/-- A C++ `std::string`. -/
abbrev CString := List CChar

/-- The code of a character literal of the source. -/
def ch (c : Char) : CChar := Int.ofNat c.toNat

/-- A string literal of the source. -/
def lit (s : String) : CString := s.toList.map ch

/-- Standard output: the texts written by the successive output statements. -/
abbrev Output := List CString

/-- The integer is the value of an 8-bit `char`, signed (-128..127) or
unsigned (0..255): what `static_cast<int>(c)` can be. -/
def isChar (c : CChar) : Prop := -128 ≤ c ∧ c ≤ 255

instance (c : CChar) : Decidable (isChar c) := by
  unfold isChar; infer_instance

/-- Smallest value of a 32-bit `int`. -/
def INT_MIN : Int := -2147483648

/-- Largest value of a 32-bit `int`. -/
def INT_MAX : Int := 2147483647

/-- The integer is representable as a 32-bit `int`. -/
def inIntRange (x : Int) : Prop := INT_MIN ≤ x ∧ x ≤ INT_MAX

instance (x : Int) : Decidable (inIntRange x) := by
  unfold inIntRange; infer_instance

/-- The sum of two `int` as the machine computes it: reduced modulo `2^32`
into the range of `int`. -/
def wrapInt (x : Int) : Int := (x - INT_MIN) % 4294967296 + INT_MIN

/-- The values of type `double` the program computes: an integer (`finite x`
is the `double` nearest to `x`, which is `x` itself for the products of a digit
value and a power of two), an infinity, or a NaN. -/
inductive CDouble where
  | finite (x : Int)
  | infinite (negative : Bool)
  | nan
  deriving DecidableEq, Repr

/-- The bound of the finite `double` values: `2^1024`, written `16^256`. -/
def DBL_BOUND : Int := Int.ofNat (16 ^ 256)

/-- The `double` of an integer result: itself below `2^1024` in absolute
value, an infinity of its sign otherwise. -/
def CDouble.ofInt (x : Int) : CDouble :=
  if -DBL_BOUND < x ∧ x < DBL_BOUND then .finite x else .infinite (decide (x < 0))

/-- The call `std::pow(base, power)` on two `int` (line 78), for a power that
is not negative. -/
def CDouble.pow (base power : Int) : CDouble :=
  CDouble.ofInt (base ^ power.toNat)

/-- The product `digitValue * x` of an `int` and a `double` (line 78). -/
def CDouble.mulInt (d : Int) : CDouble → CDouble
  | .finite x => CDouble.ofInt (d * x)
  | .infinite negative =>
    if d = 0 then .nan else .infinite (negative != decide (d < 0))
  | .nan => .nan

/-- The conversion of a `double` to `int` (the initialisation of
`contribution`, line 78): the value inside the range of `int`, `INT_MIN`
otherwise. -/
def CDouble.toInt : CDouble → Int
  | .finite x => if INT_MIN ≤ x ∧ x ≤ INT_MAX then x else INT_MIN
  | .infinite _ => INT_MIN
  | .nan => INT_MIN

/-- Decimal digits of a natural number, most significant first; the first
argument bounds the number of digits produced. -/
def decimalDigits : Nat → Nat → CString
  | 0, _ => []
  | fuel + 1, n =>
    if n < 10 then [ch '0' + Int.ofNat n]
    else decimalDigits fuel (n / 10) ++ [ch '0' + Int.ofNat (n % 10)]

/-- The decimal rendering of an `int`: `std::to_string` and stream insertion
of an `int`. -/
def to_string (n : Int) : CString :=
  if n < 0 then ch '-' :: decimalDigits (n.natAbs + 1) n.natAbs
  else decimalDigits (n.natAbs + 1) n.natAbs

/-! ## The data model (`main.cpp` lines 8-24) -/

/-- The enumeration `NumberSystem`. -/
inductive NumberSystem where
  | BINARY
  | OCTAL
  | HEXADECIMAL
  deriving DecidableEq, Repr

/-- The conversion `static_cast<int>(base)`. -/
def NumberSystem.toInt : NumberSystem → Int
  | .BINARY => 2
  | .OCTAL => 8
  | .HEXADECIMAL => 16

/-- The struct `ConversionResult`. -/
structure ConversionResult where
  value : CString
  steps : List CString
  base : NumberSystem
  deriving DecidableEq, Repr

/-- The struct `DecimalConversion`. -/
structure DecimalConversion where
  result : Int
  expression : CString
  contributions : CString
  deriving DecidableEq, Repr

/-! ## `NumberConverter` (`main.cpp` lines 26-107) -/

/-- The constant `NumberConverter::BYTE_SIZE`. -/
def BYTE_SIZE : Int := 8

/-- The constant `NumberConverter::HEX_DIGITS`. -/
def HEX_DIGITS : CString := lit "0123456789ABCDEF"

/-- The digit character chosen in the division loop (lines 43-44):
`HEX_DIGITS[remainder]` for hexadecimal, the first character of
`std::to_string(remainder)` otherwise. -/
def digitChar (base : NumberSystem) (remainder : Int) : CChar :=
  if base = .HEXADECIMAL then HEX_DIGITS.getD remainder.toNat 0
  else (to_string remainder).headD 0

/-- The derivation line built in the string stream `step` (lines 46-48). -/
def stepLine (base : NumberSystem) (number : Int) (digit : CChar) : CString :=
  to_string number ++ lit " : " ++ to_string base.toInt ++ lit " = "
    ++ to_string (number.tdiv base.toInt) ++ lit " // " ++ [digit]

/-- The loop `while (number > 0)` of `decimalToBase` (lines 41-53) on the state
`(number, result, steps)`; the first argument bounds the number of
iterations. -/
def decimalToBase.loop (base : NumberSystem) :
    Nat → Int → CString → List CString → CString × List CString
  | 0, _, result, steps => (result, steps)
  | fuel + 1, number, result, steps =>
    if number > 0 then
      let remainder := number.tmod base.toInt
      let digit := digitChar base remainder
      decimalToBase.loop base fuel (number.tdiv base.toInt) (digit :: result)
        (steps ++ [stepLine base number digit])
    else (result, steps)

/-- The value `minPadding` computed by the `switch` (lines 55-63). -/
def minPadding (base : NumberSystem) (result : CString) : Int :=
  match base with
  | .BINARY => max BYTE_SIZE (Int.ofNat result.length)
  | .OCTAL => max 3 (Int.ofNat result.length)
  | .HEXADECIMAL => max 2 (Int.ofNat result.length)

/-- The function `NumberConverter::decimalToBase` (lines 32-67).  The loop
is given `decimal` iterations, which it never exhausts since every iteration
divides a positive `number` by at least 2. -/
def decimalToBase (decimal : Int) (base : NumberSystem) : ConversionResult :=
  if decimal = 0 then
    { value := lit "0", steps := [lit "0"], base := base }
  else
    let r := decimalToBase.loop base decimal.toNat decimal [] []
    let result := r.1
    let steps := r.2
    let result :=
      List.replicate (minPadding base result - Int.ofNat result.length).toNat (ch '0') ++ result
    { value := result, steps := steps, base := base }

/-- The function `NumberConverter::getHexValue` (lines 98-103). -/
def getHexValue (hex : CChar) : Int :=
  if hex ≥ ch '0' ∧ hex ≤ ch '9' then hex - ch '0'
  else if hex ≥ ch 'A' ∧ hex ≤ ch 'F' then 10 + (hex - ch 'A')
  else if hex ≥ ch 'a' ∧ hex ≤ ch 'f' then 10 + (hex - ch 'a')
  else 0

/-- The value `digitValue` of one loop iteration of `baseToDecimal`
(lines 75-76). -/
def digitValue (base : NumberSystem) (c : CChar) : Int :=
  if base = .HEXADECIMAL then getHexValue c else c - ch '0'

/-- The initialisation `int contribution = digitValue * std::pow(base, power)`
(line 78): the power and the product are computed in `double` and the product
is converted to `int`. -/
def contribution (digitValue : Int) (base : NumberSystem) (power : Int) : Int :=
  (CDouble.mulInt digitValue (CDouble.pow base.toInt power)).toInt

/-- The first loop of `baseToDecimal` (lines 74-86), run on the characters
`value[i], value[i+1], ...` that are still to be read, on the state
`(decimal, contributions, expr)`; `len` is `value.length()`. -/
def baseToDecimal.loop (base : NumberSystem) (len : Nat) :
    List CChar → Nat → Int → List Int → CString → Int × List Int × CString
  | [], _, decimal, contributions, expr => (decimal, contributions, expr)
  | c :: rest, i, decimal, contributions, expr =>
    let digitValue := digitValue base c
    let power : Int := Int.ofNat len - 1 - Int.ofNat i
    let contribution := contribution digitValue base power
    let expr := if i > 0 then expr ++ lit " + " else expr
    let expr := expr ++ lit "(" ++ to_string digitValue ++ lit " * " ++ to_string base.toInt
      ++ lit "^" ++ to_string power ++ lit ")"
    baseToDecimal.loop base len rest (i + 1) (wrapInt (decimal + contribution))
      (contributions ++ [contribution]) expr

/-- The second loop of `baseToDecimal` (lines 88-92), run on the entries
`contributions[i], contributions[i+1], ...` still to be written. -/
def baseToDecimal.contribLoop : List Int → Nat → CString → CString
  | [], _, contribStr => contribStr
  | x :: rest, i, contribStr =>
    let contribStr := if i > 0 then contribStr ++ lit " + " else contribStr
    baseToDecimal.contribLoop rest (i + 1) (contribStr ++ to_string x)

/-- The vector `contributions` at the end of the first loop of
`baseToDecimal`. -/
def baseToDecimal.terms (value : CString) (base : NumberSystem) : List Int :=
  (baseToDecimal.loop base value.length value 0 0 [] []).2.1

/-- The function `NumberConverter::baseToDecimal` (lines 69-95). -/
def baseToDecimal (value : CString) (base : NumberSystem) : DecimalConversion :=
  let r := baseToDecimal.loop base value.length value 0 0 [] []
  { result := r.1
    expression := r.2.2
    contributions := baseToDecimal.contribLoop r.2.1 0 [] }

/-! ## `ASCIIConverter` (`main.cpp` lines 109-200) -/

/-- The class `ASCIIConverter`; its only data member is `text`. -/
structure ASCIIConverter where
  text : CString
  deriving DecidableEq, Repr

/-- The text written by the warning statement of `process` (line 122). -/
def warningLine (c : CChar) : CString :=
  lit "Warning: Character '" ++ [c] ++ lit "' is not in ASCII range\n"

/-- The method `ASCIIConverter::printBaseConversion` (lines 155-173).  The
conversion `static_cast<char>(result.result)` is the identity on character
codes. -/
def printBaseConversion (baseName : CString) (conv : ConversionResult) (c : CChar)
    (asciiValue : Int) : Output :=
  let result := baseToDecimal conv.value conv.base
  [lit "Formula to convert Decimal " ++ to_string asciiValue ++ lit " (" ++ [c] ++ lit ") to "
      ++ baseName ++ lit ":\n"]
    ++ conv.steps.map (fun step => step ++ lit "\n")
    ++ [lit "\n"]
    ++ [lit "Formula to convert " ++ baseName ++ lit " " ++ conv.value ++ lit " (" ++ [c]
          ++ lit ") back to Decimal:\n",
        conv.value ++ lit " = " ++ result.expression ++ lit "\n",
        lit "         = " ++ result.contributions ++ lit "\n",
        lit "         = " ++ to_string result.result ++ lit " (" ++ [result.result]
          ++ lit ")\n\n"]

/-- The method `ASCIIConverter::printConversions` (lines 143-153). -/
def printConversions (c : CChar) (asciiValue : Int)
    (bin oct hex : ConversionResult) : Output :=
  [lit "----------------------------------------------------------------------\n"]
    ++ printBaseConversion (lit "Binary") bin c asciiValue
    ++ printBaseConversion (lit "Octal") oct c asciiValue
    ++ printBaseConversion (lit "Hexadecimal") hex c asciiValue

/-- The loop of `printValueSet` (lines 188-197), run on the entries
`values[i], values[i+1], ...` still to be written; `text[i]` past the end of
the text reads as the terminating `0`. -/
def printValueSet.loop (text : CString) : Nat → List CString → Output
  | _, [] => []
  | i, v :: rest =>
    let c := text.getD i 0
    [v] ++ [if c ≥ 32 ∧ c ≤ 126 then lit " (" ++ [c] ++ lit ")" else lit " (non-printable)"]
      ++ [lit " "] ++ printValueSet.loop text (i + 1) rest

/-- The method `ASCIIConverter::printValueSet` (lines 186-199). -/
def printValueSet (self : ASCIIConverter) (label : CString) (values : List CString) : Output :=
  [label ++ lit ": "] ++ printValueSet.loop self.text 0 values ++ [lit "\n"]

/-- The method `ASCIIConverter::printFinalResults` (lines 175-184). -/
def printFinalResults (self : ASCIIConverter) (decimal binary octal hex : List CString) :
    Output :=
  [lit "\nFinal Results:\n"]
    ++ printValueSet self (lit "Decimal") decimal
    ++ printValueSet self (lit "Binary") binary
    ++ printValueSet self (lit "Octal") octal
    ++ printValueSet self (lit "Hexadecimal") hex

/-- The local vectors of `process` together with what has been written to
standard output. -/
structure ProcessState where
  decimalValues : List CString
  binaryValues : List CString
  octalValues : List CString
  hexValues : List CString
  out : Output
  deriving DecidableEq, Repr

/-- One iteration of the loop `for (char c : text)` of `process`
(lines 119-137). -/
def process.body (st : ProcessState) (c : CChar) : ProcessState :=
  let asciiValue : Int := c
  if asciiValue > 255 then
    { st with out := st.out ++ [warningLine c] }
  else
    let binConv := decimalToBase asciiValue .BINARY
    let octConv := decimalToBase asciiValue .OCTAL
    let hexConv := decimalToBase asciiValue .HEXADECIMAL
    { decimalValues := st.decimalValues ++ [to_string asciiValue]
      binaryValues := st.binaryValues ++ [binConv.value]
      octalValues := st.octalValues ++ [octConv.value]
      hexValues := st.hexValues ++ [hexConv.value]
      out := st.out ++ printConversions c asciiValue binConv octConv hexConv }

/-- The state of `process` when its loop is left (line 138). -/
def process.loop (self : ASCIIConverter) : ProcessState :=
  self.text.foldl process.body
    { decimalValues := [], binaryValues := [], octalValues := [], hexValues := [], out := [] }

/-- The method `ASCIIConverter::process` (lines 116-140): the four vectors as
they are handed to `printFinalResults`, and everything written. -/
def process (self : ASCIIConverter) : ProcessState :=
  let st := process.loop self
  { st with
    out := st.out ++ printFinalResults self st.decimalValues st.binaryValues st.octalValues
      st.hexValues }

/-! ## `main` (`main.cpp` lines 202-219) -/

/-- The text of the prompt statement (line 205). -/
def promptLine : CString := lit "Enter ASCII: "

/-- The text of the error statement (line 208). -/
def emptyErrorLine : CString := lit "Error: Input cannot be empty!\n"

/-- The loop `do ... while (text.empty())` of `main` (lines 204-210) on the
lines still to be read and what has been written: the text the loop is left
with and the output, or `none` when the input ends before a non-empty line
(the loop of the source then runs for ever). -/
def main.readLoop : List CString → Output → Option (CString × Output)
  | [], _ => none
  | line :: rest, out =>
    let out := out ++ [promptLine]
    let text := line
    if text.isEmpty then
      main.readLoop rest (out ++ [emptyErrorLine])
    else
      some (text, out)

/-- The function `main` (lines 202-219) on the lines of standard input: the
exit code and everything written. -/
def main (input : List CString) : Option (Int × Output) :=
  match main.readLoop input [] with
  | none => none
  | some (text, out) =>
    let out := out ++ [lit "\nConverting ASCII '" ++ text
      ++ lit "' to Decimal, Binary, Octal, and Hexadecimal!\n\n"]
    let converter : ASCIIConverter := { text := text }
    some (0, out ++ (process converter).out)

/-! ## Vocabulary of the specification -/

/-- The radix as a natural number: 2, 8 or 16. -/
def NumberSystem.radix : NumberSystem → Nat
  | .BINARY => 2
  | .OCTAL => 8
  | .HEXADECIMAL => 16

/-- The minimum width of the specification: 8 for binary, 3 for octal, 2 for
hexadecimal. -/
def NumberSystem.minWidth : NumberSystem → Nat
  | .BINARY => 8
  | .OCTAL => 3
  | .HEXADECIMAL => 2

/-- The character of a digit: `0`-`9`, then uppercase `A`-`F`. -/
def specDigitChar (d : Nat) : CChar :=
  if d < 10 then ch '0' + Int.ofNat d else ch 'A' + Int.ofNat (d - 10)

/-- The canonical digit string of `n` in radix `r`: most significant digit
first, no leading zero, uppercase hexadecimal digits. -/
def canonicalDigits (r : NumberSystem) (n : Nat) : CString :=
  (Nat.digits r.radix n).reverse.map specDigitChar

/-- The digit value of the specification: `0`-`9` are 0..9 and, for
hexadecimal, `A`-`F` and `a`-`f` are 10..15. -/
def specDigitValue (r : NumberSystem) (c : CChar) : Nat :=
  if ch '0' ≤ c ∧ c ≤ ch '9' then (c - ch '0').toNat
  else if r = .HEXADECIMAL ∧ ch 'A' ≤ c ∧ c ≤ ch 'F' then (c - ch 'A').toNat + 10
  else if r = .HEXADECIMAL ∧ ch 'a' ≤ c ∧ c ≤ ch 'f' then (c - ch 'a').toNat + 10
  else 0

/-- The character is a valid digit of the radix (for hexadecimal: `0`-`9`,
`A`-`F`, `a`-`f`). -/
def validDigit (r : NumberSystem) (c : CChar) : Prop :=
  (ch '0' ≤ c ∧ c < ch '0' + Int.ofNat (min r.radix 10))
    ∨ (r = .HEXADECIMAL ∧ ((ch 'A' ≤ c ∧ c ≤ ch 'F') ∨ (ch 'a' ≤ c ∧ c ≤ ch 'f')))

instance (r : NumberSystem) (c : CChar) : Decidable (validDigit r c) := by
  unfold validDigit; infer_instance

/-- The value a digit string represents: the sum over the indices `i` of
`digitValue(s[i]) * r^(|s| - 1 - i)`. -/
def specValue (r : NumberSystem) (s : CString) : Nat :=
  ∑ i in Finset.range s.length, specDigitValue r (s.getD i 0) * r.radix ^ (s.length - 1 - i)

/-- The exact positional values of the characters of a string:
`digitValue * base ^ (number of characters behind)`, as integers. -/
def placeValues (base : NumberSystem) : List CChar → List Int
  | [] => []
  | c :: rest => digitValue base c * base.toInt ^ rest.length :: placeValues base rest

/-- The number of digits up to which every power `r^p` of the reconstruction
is a finite `double`: 1024 in binary, 342 in octal, 256 in hexadecimal
(`2^1023`, `8^341` and `16^255` are below `2^1024`). -/
def NumberSystem.maxLength : NumberSystem → Nat
  | .BINARY => 1024
  | .OCTAL => 342
  | .HEXADECIMAL => 256

/-- The computation of `baseToDecimal` stays inside the range of `double` and
of `int`: every power is a finite `double`, every product
`digitValue * base^power` is representable as an `int`, and so is every
intermediate value of `decimal`. -/
def baseToDecimal.inRange (value : CString) (base : NumberSystem) : Prop :=
  (∀ p, p < value.length → base.toInt ^ p < DBL_BOUND)
    ∧ (∀ x ∈ placeValues base value, inIntRange x)
    ∧ ∀ k, inIntRange ((placeValues base value).take k).sum

/-- The character is skipped by `process`: its code exceeds 255. -/
def isSkipped (c : CChar) : Bool := decide (c > 255)

/-- The annotation of a summary entry: the character in parentheses when its
code is in [32, 126], the words `non-printable` otherwise. -/
def charNote (c : CChar) : CString :=
  if 32 ≤ c ∧ c ≤ 126 then lit " (" ++ [c] ++ lit ")" else lit " (non-printable)"

/-- The derivation line number `j` of the specification for `n`:
`<a> : <r> = <b> // <g>` with `a = n div r^j`, `b = n div r^(j+1)` and `g` the
digit character of `a mod r`. -/
def derivationLine (r : NumberSystem) (n j : Nat) : CString :=
  to_string (Int.ofNat (n / r.radix ^ j)) ++ lit " : " ++ to_string (Int.ofNat r.radix)
    ++ lit " = " ++ to_string (Int.ofNat (n / r.radix ^ (j + 1))) ++ lit " // "
    ++ [specDigitChar (n / r.radix ^ j % r.radix)]

/-- The four vectors of `process`: decimal, binary, octal, hexadecimal. -/
def ProcessState.accumulators (st : ProcessState) :
    List CString × List CString × List CString × List CString :=
  (st.decimalValues, st.binaryValues, st.octalValues, st.hexValues)

/-- The term of the expression for the digit value `d` at the power `p`:
`(<d> * <r>^<p>)`. -/
def expressionTerm (r : NumberSystem) (d : Int) (p : Nat) : CString :=
  lit "(" ++ to_string d ++ lit " * " ++ to_string (Int.ofNat r.radix) ++ lit "^"
    ++ to_string (Int.ofNat p) ++ lit ")"

/-- One entry per character of a string, computed from the character and the
number of characters behind it (its power). -/
def positional {α : Type} (f : CChar → Nat → α) : List CChar → List α
  | [] => []
  | c :: rest => f c rest.length :: positional f rest

/-- The contributions the first loop of `baseToDecimal` computes for the
characters of a string, as the machine computes them. -/
def machineTerms (base : NumberSystem) (s : List CChar) : List Int :=
  positional (fun c p => contribution (digitValue base c) base (Int.ofNat p)) s

/-- The value of `decimal` after the contributions `xs` have been added to
`decimal`, one `int` addition each. -/
def addAll (decimal : Int) (xs : List Int) : Int :=
  xs.foldl (fun acc x => wrapInt (acc + x)) decimal

/-- The texts `ts` written one after the other from loop index `i` on, each
preceded by ` + ` unless the index is 0. -/
def joinFrom : Nat → List CString → CString
  | _, [] => []
  | i, t :: ts => (if i > 0 then lit " + " else []) ++ t ++ joinFrom (i + 1) ts

/-- The uppercase form of a letter `a`-`f`; every other character is kept. -/
def toUpperHex (c : CChar) : CChar :=
  if ch 'a' ≤ c ∧ c ≤ ch 'f' then c - ch 'a' + ch 'A' else c

/-- The characters `std::getline` returns for a line typed on a UTF-8
terminal when `char` is unsigned: the bytes of the UTF-8 encoding of the line,
each between 0 and 255. -/
def utf8Line (line : String) : CString :=
  line.toList.flatMap (fun c => (String.utf8EncodeChar c).map (fun b => Int.ofNat b.toNat))

/-- The same characters when `char` is signed: a byte `b` from 128 on is the
negative code `b - 256`. -/
def utf8LineSigned (line : String) : CString :=
  (utf8Line line).map (fun b => if b ≥ 128 then b - 256 else b)

/-- The output statement wrote a warning. -/
def isWarning (chunk : CString) : Bool :=
  (lit "Warning: Character '").isPrefixOf chunk

/-! ## Auxiliary facts -/

/-- The decimal rendering on a few values, among them both ends of the range
of `int`. -/
theorem to_string_examples :
    to_string 0 = lit "0" ∧ to_string 7 = lit "7" ∧ to_string 65 = lit "65"
      ∧ to_string 255 = lit "255" ∧ to_string (-61) = lit "-61"
      ∧ to_string 2147483647 = lit "2147483647"
      ∧ to_string (-2147483648) = lit "-2147483648" := by
  decide

/-- The derivation of 65 in hexadecimal and its reconstruction, evaluated. -/
theorem conversion_examples :
    (decimalToBase 65 .HEXADECIMAL).steps = [lit "65 : 16 = 4 // 1", lit "4 : 16 = 0 // 4"]
      ∧ (decimalToBase 255 .HEXADECIMAL).steps
        = [lit "255 : 16 = 15 // F", lit "15 : 16 = 0 // F"]
      ∧ (baseToDecimal (lit "41") .HEXADECIMAL).expression = lit "(4 * 16^1) + (1 * 16^0)"
      ∧ (baseToDecimal (lit "41") .HEXADECIMAL).contributions = lit "64 + 1" := by
  decide

theorem toInt_eq_radix (base : NumberSystem) : base.toInt = (base.radix : Int) := by
  cases base <;> rfl

theorem one_lt_radix (base : NumberSystem) : 1 < base.radix := by
  cases base <;> decide

theorem digitChar_eq_specDigitChar (base : NumberSystem) (d : Nat) (h : d < base.radix) :
    digitChar base (d : Int) = specDigitChar d := by
  cases base
  · have h2 : d < 2 := h
    interval_cases d <;> decide
  · have h8 : d < 8 := h
    interval_cases d <;> decide
  · have h16 : d < 16 := h
    interval_cases d <;> decide

theorem canonicalDigits_zero (base : NumberSystem) : canonicalDigits base 0 = [] := by
  simp [canonicalDigits]

theorem canonicalDigits_pos (base : NumberSystem) (m : Nat) (h : 0 < m) :
    canonicalDigits base m
      = canonicalDigits base (m / base.radix) ++ [specDigitChar (m % base.radix)] := by
  simp [canonicalDigits, Nat.digits_def' (one_lt_radix base) h]

theorem derivationLine_succ (base : NumberSystem) (m j : Nat) :
    derivationLine base m (j + 1) = derivationLine base (m / base.radix) j := by
  have h : ∀ k, m / base.radix ^ (k + 1) = m / base.radix / base.radix ^ k := by
    intro k
    rw [Nat.div_div_eq_div_mul, pow_succ']
  simp only [derivationLine, h]

theorem derivationLines_pos (base : NumberSystem) (m : Nat) (h : 0 < m) :
    (List.range (Nat.digits base.radix m).length).map (derivationLine base m)
      = derivationLine base m 0
          :: (List.range (Nat.digits base.radix (m / base.radix)).length).map
              (derivationLine base (m / base.radix)) := by
  rw [Nat.digits_def' (one_lt_radix base) h, List.length_cons, List.range_succ_eq_map,
    List.map_cons, List.map_map]
  congr 1
  apply List.map_congr_left
  intro j _
  exact derivationLine_succ base m j

theorem tdiv_radix (base : NumberSystem) (m : Nat) :
    (m : Int).tdiv base.toInt = ((m / base.radix : Nat) : Int) := by
  rw [toInt_eq_radix, Int.tdiv_eq_ediv (Int.ofNat_nonneg m) (Int.ofNat_nonneg _)]
  norm_cast

theorem tmod_radix (base : NumberSystem) (m : Nat) :
    (m : Int).tmod base.toInt = ((m % base.radix : Nat) : Int) := by
  rw [toInt_eq_radix, Int.tmod_eq_emod (Int.ofNat_nonneg m) (Int.ofNat_nonneg _)]
  norm_cast

theorem stepLine_eq_derivationLine (base : NumberSystem) (m : Nat) :
    stepLine base (m : Int) (digitChar base ((m : Int).tmod base.toInt))
      = derivationLine base m 0 := by
  rw [tmod_radix, digitChar_eq_specDigitChar base _ (Nat.mod_lt _ (by have := one_lt_radix base; omega))]
  have h := tdiv_radix base m
  rw [toInt_eq_radix] at h
  simp only [stepLine, derivationLine, toInt_eq_radix, h, pow_zero, Nat.div_one,
    pow_one, zero_add, Int.ofNat_eq_coe]

/-- The division loop, started on a natural number `m` with at least `m`
iterations allowed, prepends the canonical digits of `m` and appends its
derivation lines. -/
theorem decimalToBase_loop_eq (base : NumberSystem) :
    ∀ (fuel m : Nat) (result : CString) (steps : List CString), m ≤ fuel →
      decimalToBase.loop base fuel (m : Int) result steps
        = (canonicalDigits base m ++ result,
            steps ++ (List.range (Nat.digits base.radix m).length).map
              (derivationLine base m)) := by
  intro fuel
  induction fuel with
  | zero =>
    intro m result steps hm
    obtain rfl : m = 0 := by omega
    simp [decimalToBase.loop, canonicalDigits]
  | succ fuel ih =>
    intro m result steps hm
    rcases Nat.eq_zero_or_pos m with rfl | hpos
    · simp [decimalToBase.loop, canonicalDigits]
    · have hgt : (m : Int) > 0 := by exact_mod_cast hpos
      have hdiv : m / base.radix ≤ fuel := by
        have := Nat.div_lt_self hpos (one_lt_radix base)
        omega
      rw [decimalToBase.loop, if_pos hgt]
      simp only []
      rw [stepLine_eq_derivationLine, tdiv_radix, ih _ _ _ hdiv, tmod_radix,
        digitChar_eq_specDigitChar base _ (Nat.mod_lt _ (by have := one_lt_radix base; omega)),
        canonicalDigits_pos base m hpos, derivationLines_pos base m hpos]
      simp

theorem minPadding_sub_length (base : NumberSystem) (result : CString) :
    (minPadding base result - Int.ofNat result.length).toNat = base.minWidth - result.length := by
  cases base <;> simp only [minPadding, BYTE_SIZE, NumberSystem.minWidth, Int.ofNat_eq_coe] <;> omega

/-- Closed form of `decimalToBase` on a positive number. -/
theorem decimalToBase_pos (base : NumberSystem) (m : Nat) (h : 0 < m) :
    decimalToBase (m : Int) base
      = { value := List.replicate (base.minWidth - (canonicalDigits base m).length) (ch '0')
            ++ canonicalDigits base m
          steps := (List.range (Nat.digits base.radix m).length).map (derivationLine base m)
          base := base } := by
  have hne : ¬ ((m : Int) = 0) := by
    intro h0
    have : m = 0 := by exact_mod_cast h0
    omega
  unfold decimalToBase
  rw [if_neg hne]
  simp only [Int.toNat_ofNat, decimalToBase_loop_eq base m m [] [] (le_refl m),
    minPadding_sub_length, List.append_nil, List.nil_append]

theorem wrapInt_of_inIntRange (x : Int) (h : inIntRange x) : wrapInt x = x := by
  unfold inIntRange INT_MIN INT_MAX at h
  unfold wrapInt INT_MIN
  omega

theorem machineTerms_cons (base : NumberSystem) (c : CChar) (rest : List CChar) :
    machineTerms base (c :: rest)
      = contribution (digitValue base c) base (Int.ofNat rest.length)
          :: machineTerms base rest := rfl

theorem addAll_cons (decimal x : Int) (xs : List Int) :
    addAll decimal (x :: xs) = addAll (wrapInt (decimal + x)) xs := rfl

/-- Closed form of the first loop of `baseToDecimal`: the contributions are
appended to the vector and added to `decimal` one by one. -/
theorem baseToDecimal_loop_eq (base : NumberSystem) (len : Nat) :
    ∀ (cs : List CChar) (i : Nat) (decimal : Int) (contributions : List Int) (expr : CString),
      i + cs.length = len →
      (baseToDecimal.loop base len cs i decimal contributions expr).1
          = addAll decimal (machineTerms base cs)
        ∧ (baseToDecimal.loop base len cs i decimal contributions expr).2.1
          = contributions ++ machineTerms base cs := by
  intro cs
  induction cs with
  | nil =>
    intro i decimal contributions expr _
    simp [baseToDecimal.loop, machineTerms, positional, addAll]
  | cons c rest ih =>
    intro i decimal contributions expr hlen
    have hpow : Int.ofNat len - 1 - Int.ofNat i = Int.ofNat rest.length := by
      simp only [List.length_cons, Int.ofNat_eq_coe] at hlen ⊢
      omega
    have hlen2 : i + 1 + rest.length = len := by
      simp only [List.length_cons] at hlen
      omega
    simp only [baseToDecimal.loop, hpow]
    obtain ⟨h1, h2⟩ := ih (i + 1)
      (wrapInt (decimal + contribution (digitValue base c) base (Int.ofNat rest.length)))
      (contributions ++ [contribution (digitValue base c) base (Int.ofNat rest.length)])
      (((if i > 0 then expr ++ lit " + " else expr) ++ lit "(" ++ to_string (digitValue base c)
        ++ lit " * " ++ to_string base.toInt ++ lit "^"
        ++ to_string (Int.ofNat rest.length) ++ lit ")")) hlen2
    rw [h1, h2, machineTerms_cons, addAll_cons]
    simp

theorem baseToDecimal_terms (value : CString) (base : NumberSystem) :
    baseToDecimal.terms value base = machineTerms base value := by
  have h := (baseToDecimal_loop_eq base value.length value 0 0 [] [] (by simp)).2
  simpa [baseToDecimal.terms] using h

theorem baseToDecimal_result (value : CString) (base : NumberSystem) :
    (baseToDecimal value base).result = addAll 0 (machineTerms base value) := by
  have h := (baseToDecimal_loop_eq base value.length value 0 0 [] [] (by simp)).1
  simpa [baseToDecimal] using h

theorem radix_pow_pos (base : NumberSystem) (p : Nat) : 0 < base.toInt ^ p := by
  rw [toInt_eq_radix]
  have := one_lt_radix base
  positivity

theorem int_bound_lt_DBL_BOUND : (4294967296 : Int) < DBL_BOUND := by decide

/-- The contribution is the exact product when the power is a finite `double`
and the product is representable as an `int`. -/
theorem contribution_exact (d : Int) (base : NumberSystem) (p : Nat)
    (hfin : base.toInt ^ p < DBL_BOUND) (hr : inIntRange (d * base.toInt ^ p)) :
    contribution d base (Int.ofNat p) = d * base.toInt ^ p := by
  have hpos := radix_pow_pos base p
  have hb := int_bound_lt_DBL_BOUND
  have hr2 : INT_MIN ≤ d * base.toInt ^ p ∧ d * base.toInt ^ p ≤ INT_MAX := hr
  have h1 : -DBL_BOUND < base.toInt ^ p ∧ base.toInt ^ p < DBL_BOUND := ⟨by omega, hfin⟩
  have h2 : -DBL_BOUND < d * base.toInt ^ p ∧ d * base.toInt ^ p < DBL_BOUND := by
    unfold INT_MIN INT_MAX at hr2
    constructor <;> omega
  have e : (Int.ofNat p).toNat = p := rfl
  unfold contribution CDouble.pow
  rw [e, CDouble.ofInt, if_pos h1]
  simp only [CDouble.mulInt]
  rw [CDouble.ofInt, if_pos h2]
  simp only [CDouble.toInt]
  rw [if_pos hr2]

/-- The contribution of a digit value 0 is `INT_MIN` once the power is beyond
the range of `double`: `0 * infinity` is a NaN. -/
theorem contribution_zero_of_not_finite (base : NumberSystem) (p : Nat)
    (hinf : ¬ base.toInt ^ p < DBL_BOUND) : contribution 0 base (Int.ofNat p) = INT_MIN := by
  have h1 : ¬ (-DBL_BOUND < base.toInt ^ p ∧ base.toInt ^ p < DBL_BOUND) := fun h => hinf h.2
  have e : (Int.ofNat p).toNat = p := rfl
  unfold contribution CDouble.pow
  rw [e, CDouble.ofInt, if_neg h1]
  simp only [CDouble.mulInt, if_true, CDouble.toInt]

theorem machineTerms_eq_placeValues (base : NumberSystem) (s : CString)
    (hfin : ∀ p, p < s.length → base.toInt ^ p < DBL_BOUND)
    (hr : ∀ x ∈ placeValues base s, inIntRange x) :
    machineTerms base s = placeValues base s := by
  induction s with
  | nil => rfl
  | cons c rest ih =>
    rw [machineTerms_cons, placeValues,
      ih (fun p hp => hfin p (by rw [List.length_cons]; omega))
        (fun x hx => hr x (by rw [placeValues]; exact List.mem_cons_of_mem _ hx)),
      contribution_exact _ base _ (hfin _ (by rw [List.length_cons]; omega))
        (hr _ (by rw [placeValues]; exact List.mem_cons_self _ _))]

theorem addAll_eq_sum (xs : List Int) :
    ∀ decimal : Int, (∀ k, inIntRange (decimal + (xs.take k).sum)) →
      addAll decimal xs = decimal + xs.sum := by
  induction xs with
  | nil => intro decimal _; simp [addAll]
  | cons x rest ih =>
    intro decimal h
    have h1 : inIntRange (decimal + x) := by
      have := h 1
      simpa using this
    rw [addAll_cons, wrapInt_of_inIntRange _ h1, ih (decimal + x), List.sum_cons, add_assoc]
    intro k
    have := h (k + 1)
    simpa [add_assoc] using this

/-- Inside the range of `double` and of `int` the machine computes the exact
positional values and their exact sum. -/
theorem baseToDecimal_exact (value : CString) (base : NumberSystem)
    (h : baseToDecimal.inRange value base) :
    baseToDecimal.terms value base = placeValues base value
      ∧ (baseToDecimal value base).result = (placeValues base value).sum := by
  obtain ⟨hfin, hr, hsum⟩ := h
  have hterms := machineTerms_eq_placeValues base value hfin hr
  constructor
  · rw [baseToDecimal_terms, hterms]
  · rw [baseToDecimal_result, hterms, addAll_eq_sum _ 0 (fun k => by simpa using hsum k)]
    simp

theorem maxLength_pow_lt (base : NumberSystem) (p : Nat) (h : p < base.maxLength) :
    base.toInt ^ p < DBL_BOUND := by
  rw [toInt_eq_radix]
  have aux : ∀ e q : Nat, q < e → 2 ^ q < 2 ^ e :=
    fun e q hq => Nat.pow_lt_pow_right (by decide) hq
  have e16 : (16 : Nat) ^ 256 = 2 ^ (4 * 256) := by
    rw [show (16 : Nat) = 2 ^ 4 from rfl, ← pow_mul]
  have key : base.radix ^ p < 16 ^ 256 := by
    rw [e16]
    cases base
    · have hp : p < 1024 := h
      exact aux (4 * 256) p (by omega)
    · have hp : p < 342 := h
      have e8 : (8 : Nat) ^ p = 2 ^ (3 * p) := by
        rw [show (8 : Nat) = 2 ^ 3 from rfl, ← pow_mul]
      show (8 : Nat) ^ p < 2 ^ (4 * 256)
      rw [e8]
      exact aux (4 * 256) (3 * p) (by omega)
    · have hp : p < 256 := h
      have e16p : (16 : Nat) ^ p = 2 ^ (4 * p) := by
        rw [show (16 : Nat) = 2 ^ 4 from rfl, ← pow_mul]
      show (16 : Nat) ^ p < 2 ^ (4 * 256)
      rw [e16p]
      exact aux (4 * 256) (4 * p) (by omega)
  unfold DBL_BOUND
  rw [← Nat.cast_pow]
  exact Int.ofNat_lt.mpr key

theorem placeValues_append (base : NumberSystem) (xs ys : List CChar) :
    (placeValues base (xs ++ ys)).sum
      = (placeValues base xs).sum * base.toInt ^ ys.length + (placeValues base ys).sum := by
  induction xs with
  | nil => simp [placeValues]
  | cons c rest ih =>
    rw [List.cons_append]
    simp only [placeValues, List.sum_cons, ih, List.length_append, pow_add]
    ring

theorem placeValues_replicate_zero (base : NumberSystem) (k : Nat) :
    placeValues base (List.replicate k (ch '0')) = List.replicate k 0 := by
  have h0 : digitValue base (ch '0') = 0 := by cases base <;> decide
  induction k with
  | zero => rfl
  | succ k ih => simp [List.replicate_succ, placeValues, ih, h0]

theorem digitValue_specDigitChar (base : NumberSystem) (d : Nat) (h : d < base.radix) :
    digitValue base (specDigitChar d) = (d : Int) := by
  cases base
  · have h2 : d < 2 := h
    interval_cases d <;> decide
  · have h8 : d < 8 := h
    interval_cases d <;> decide
  · have h16 : d < 16 := h
    interval_cases d <;> decide

theorem placeValues_canonicalDigits (base : NumberSystem) (m : Nat) :
    (placeValues base (canonicalDigits base m)).sum = (m : Int) := by
  induction m using Nat.strong_induction_on with
  | _ m ih =>
    rcases Nat.eq_zero_or_pos m with rfl | hpos
    · simp [canonicalDigits_zero, placeValues]
    · have hr := one_lt_radix base
      have hlt : m / base.radix < m := Nat.div_lt_self hpos hr
      rw [canonicalDigits_pos base m hpos, placeValues_append, ih _ hlt]
      simp only [placeValues, List.length_singleton, List.length_nil, pow_one, pow_zero, mul_one,
        List.sum_cons, List.sum_nil, add_zero,
        digitValue_specDigitChar base _ (Nat.mod_lt _ (by omega)), toInt_eq_radix]
      have := Nat.div_add_mod m base.radix
      have h2 : ((m / base.radix : Nat) : Int) * (base.radix : Int) + ((m % base.radix : Nat) : Int)
          = ((base.radix * (m / base.radix) + m % base.radix : Nat) : Int) := by
        push_cast; ring
      rw [h2, this]

theorem placeValues_nonneg (base : NumberSystem) (s : CString)
    (h : ∀ c ∈ s, 0 ≤ digitValue base c) : ∀ x ∈ placeValues base s, 0 ≤ x := by
  induction s with
  | nil => intro x hx; simp [placeValues] at hx
  | cons c rest ih =>
    intro x hx
    simp only [placeValues, List.mem_cons] at hx
    rcases hx with rfl | hx
    · have h1 : 0 ≤ digitValue base c := h c (List.mem_cons_self _ _)
      have h2 : (0 : Int) ≤ base.toInt ^ rest.length := by
        rw [toInt_eq_radix]; positivity
      exact mul_nonneg h1 h2
    · exact ih (fun c hc => h c (List.mem_cons_of_mem _ hc)) x hx

/-- When the string is short enough for every power to be a finite `double`,
every digit value is non-negative and the sum of the positional values fits an
`int`, the computation of `baseToDecimal` stays in range. -/
theorem inRange_of_nonneg (value : CString) (base : NumberSystem)
    (hlen : value.length ≤ base.maxLength)
    (h0 : ∀ c ∈ value, 0 ≤ digitValue base c)
    (hs : (placeValues base value).sum ≤ INT_MAX) : baseToDecimal.inRange value base := by
  have hnn := placeValues_nonneg base value h0
  refine ⟨fun p hp => maxLength_pow_lt base p (by omega), ?_, ?_⟩
  · intro x hx
    have h1 := hnn x hx
    have h2 := List.single_le_sum hnn x hx
    unfold inIntRange INT_MIN
    unfold INT_MAX at hs ⊢
    omega
  · intro k
    have h1 : 0 ≤ ((placeValues base value).take k).sum :=
      List.sum_nonneg (fun x hx => hnn x (List.mem_of_mem_take hx))
    have h2 : 0 ≤ ((placeValues base value).drop k).sum :=
      List.sum_nonneg (fun x hx => hnn x (List.mem_of_mem_drop hx))
    have h3 := List.sum_take_add_sum_drop (placeValues base value) k
    unfold inIntRange INT_MIN
    unfold INT_MAX at hs ⊢
    omega

theorem digitValue_canonicalDigits_nonneg (base : NumberSystem) (m : Nat) :
    ∀ c ∈ canonicalDigits base m, 0 ≤ digitValue base c := by
  intro c hc
  simp only [canonicalDigits, List.mem_map, List.mem_reverse] at hc
  obtain ⟨d, hd, rfl⟩ := hc
  rw [digitValue_specDigitChar base d (Nat.digits_lt_base (one_lt_radix base) hd)]
  exact Int.ofNat_nonneg d

theorem digitValue_padded_nonneg (base : NumberSystem) (k m : Nat) :
    ∀ c ∈ List.replicate k (ch '0') ++ canonicalDigits base m, 0 ≤ digitValue base c := by
  intro c hc
  rcases List.mem_append.mp hc with h | h
  · obtain rfl := List.eq_of_mem_replicate h
    cases base <;> decide
  · exact digitValue_canonicalDigits_nonneg base m c h

theorem placeValues_padded (base : NumberSystem) (k m : Nat) :
    (placeValues base (List.replicate k (ch '0') ++ canonicalDigits base m)).sum = (m : Int) := by
  rw [placeValues_append, placeValues_replicate_zero, placeValues_canonicalDigits]
  simp

theorem specDigitChar_ne_zero (base : NumberSystem) (d : Nat) (h : d < base.radix)
    (hd : d ≠ 0) : specDigitChar d ≠ ch '0' := by
  have h16 : d < 16 := by
    cases base <;> simp only [NumberSystem.radix] at h <;> omega
  interval_cases d <;> first | exact absurd rfl hd | decide

theorem canonicalDigits_head (base : NumberSystem) (m : Nat) :
    (canonicalDigits base m).head? ≠ some (ch '0') := by
  rcases Nat.eq_zero_or_pos m with rfl | hpos
  · simp [canonicalDigits_zero]
  · have hne : Nat.digits base.radix m ≠ [] := by
      rw [Nat.digits_def' (one_lt_radix base) hpos]; simp
    have hlast := Nat.getLast_digit_ne_zero base.radix (Nat.pos_iff_ne_zero.mp hpos)
    have hmem : (Nat.digits base.radix m).getLast hne ∈ Nat.digits base.radix m :=
      List.getLast_mem hne
    have hlt := Nat.digits_lt_base (one_lt_radix base) hmem
    simp only [canonicalDigits, List.head?_map, List.head?_reverse,
      List.getLast?_eq_getLast _ hne, Option.map_some', ne_eq, Option.some.injEq]
    exact specDigitChar_ne_zero base _ hlt hlast

theorem placeValues_sum_eq (base : NumberSystem) (s : CString) :
    (placeValues base s).sum
      = ∑ i in Finset.range s.length,
          digitValue base (s.getD i 0) * base.toInt ^ (s.length - 1 - i) := by
  induction s with
  | nil => simp [placeValues]
  | cons c rest ih =>
    rw [List.length_cons, Finset.sum_range_succ', placeValues, List.sum_cons, ih, add_comm]
    congr 1
    apply Finset.sum_congr rfl
    intro k _
    have hk : rest.length + 1 - 1 - (k + 1) = rest.length - 1 - k := by omega
    rw [List.getD_cons_succ, hk]

theorem digitValue_of_valid (r : NumberSystem) (c : CChar) (h : validDigit r c) :
    digitValue r c = (specDigitValue r c : Int) := by
  have e0 : ch '0' = 48 := rfl
  have e9 : ch '9' = 57 := rfl
  have eA : ch 'A' = 65 := rfl
  have eF : ch 'F' = 70 := rfl
  have ea : ch 'a' = 97 := rfl
  have ef : ch 'f' = 102 := rfl
  have m2 : min 2 10 = 2 := rfl
  have m8 : min 8 10 = 8 := rfl
  have m16 : min 16 10 = 10 := rfl
  cases r <;>
    simp only [validDigit, digitValue, getHexValue, specDigitValue, NumberSystem.radix, e0, e9,
      eA, eF, ea, ef, m2, m8, m16, CChar, Int.ofNat_eq_coe, reduceCtorEq, false_and, or_false, true_and, if_false,
      if_true, ge_iff_le] at h ⊢ <;>
    split_ifs <;> omega

theorem placeValues_sum_of_valid (r : NumberSystem) (s : CString)
    (hvalid : ∀ c ∈ s, validDigit r c) :
    (placeValues r s).sum = (specValue r s : Int) := by
  rw [placeValues_sum_eq, specValue]
  push_cast
  apply Finset.sum_congr rfl
  intro i hi
  have hlen : i < s.length := Finset.mem_range.mp hi
  have hmem : s.getD i 0 ∈ s := by
    rw [List.getD_eq_getElem s 0 hlen]
    exact List.getElem_mem hlen
  rw [digitValue_of_valid r _ (hvalid _ hmem), toInt_eq_radix]

theorem digits_eq_map_range (base : NumberSystem) (m : Nat) :
    Nat.digits base.radix m
      = (List.range (Nat.digits base.radix m).length).map
          (fun j => m / base.radix ^ j % base.radix) := by
  induction m using Nat.strong_induction_on with
  | _ m ih =>
    rcases Nat.eq_zero_or_pos m with rfl | hpos
    · simp
    · have hlt : m / base.radix < m := Nat.div_lt_self hpos (one_lt_radix base)
      have hrec := ih _ hlt
      rw [Nat.digits_def' (one_lt_radix base) hpos, List.length_cons, List.range_succ_eq_map,
        List.map_cons, List.map_map]
      congr 1
      · simp
      · conv_lhs => rw [hrec]
        apply List.map_congr_left
        intro j _
        simp only [Function.comp, Nat.succ_eq_add_one]
        rw [Nat.div_div_eq_div_mul, pow_succ']

theorem canonicalDigits_eq_map_range (base : NumberSystem) (m : Nat) :
    canonicalDigits base m
      = ((List.range (Nat.digits base.radix m).length).map
          (fun j => specDigitChar (m / base.radix ^ j % base.radix))).reverse := by
  unfold canonicalDigits
  conv_lhs => rw [digits_eq_map_range base m]
  rw [List.map_reverse, List.map_map]
  rfl

/-- Closed form of `decimalToBase` on a negative number: the loop body never
runs and the empty digit string is padded to the minimum width. -/
theorem decimalToBase_neg (base : NumberSystem) (n : Int) (h : n < 0) :
    decimalToBase n base
      = { value := List.replicate base.minWidth (ch '0'), steps := [], base := base } := by
  have hne : ¬ (n = 0) := by omega
  have htn : n.toNat = 0 := by omega
  unfold decimalToBase
  rw [if_neg hne, htn]
  have hpad : (minPadding base [] - Int.ofNat ([] : CString).length).toNat = base.minWidth :=
    minPadding_sub_length base []
  simp only [decimalToBase.loop, hpad, List.append_nil]

theorem isWarning_nil : isWarning [] = false := by decide

theorem isWarning_cons (x : CChar) (xs : CString) (h : x ≠ ch 'W') :
    isWarning (x :: xs) = false := by
  have hW : lit "Warning: Character '" = ch 'W' :: lit "arning: Character '" := rfl
  have hx : (ch 'W' == x) = false := by
    rw [beq_eq_false_iff_ne]
    exact fun e => h e.symm
  rw [isWarning, hW, List.isPrefixOf_cons₂, hx, Bool.false_and]

theorem isWarning_append (xs : CString) (y : CChar) (ys : CString)
    (hxs : ∀ c ∈ xs, c ≠ ch 'W') (hy : y ≠ ch 'W') : isWarning (xs ++ y :: ys) = false := by
  cases xs with
  | nil => exact isWarning_cons y ys hy
  | cons x rest => exact isWarning_cons x _ (hxs x (List.mem_cons_self _ _))

theorem decimalDigits_head (fuel a : Nat) :
    ∃ d ds, decimalDigits (fuel + 1) a = d :: ds ∧ d ≠ ch 'W' := by
  induction fuel generalizing a with
  | zero =>
    by_cases h : a < 10
    · refine ⟨ch '0' + Int.ofNat a, [], by simp [decimalDigits, h], ?_⟩
      interval_cases a <;> decide
    · refine ⟨ch '0' + Int.ofNat (a % 10), [], by simp [decimalDigits, h], ?_⟩
      have h10 : a % 10 < 10 := Nat.mod_lt _ (by decide)
      generalize a % 10 = b at h10
      interval_cases b <;> decide
  | succ fuel ih =>
    by_cases h : a < 10
    · refine ⟨ch '0' + Int.ofNat a, [], ?_, ?_⟩
      · rw [decimalDigits, if_pos h]
      · interval_cases a <;> decide
    · obtain ⟨d, ds, hd, hne⟩ := ih (a / 10)
      refine ⟨d, ds ++ [ch '0' + Int.ofNat (a % 10)], ?_, hne⟩
      rw [decimalDigits, if_neg h, hd, List.cons_append]

theorem to_string_natCast_head (a : Nat) :
    ∃ d ds, to_string (Int.ofNat a) = d :: ds ∧ d ≠ ch 'W' := by
  have h : ¬ (Int.ofNat a < 0) := by simp
  unfold to_string
  rw [if_neg h]
  exact decimalDigits_head _ _

theorem specDigitChar_ne_W (d : Nat) (h : d < 16) : specDigitChar d ≠ ch 'W' := by
  interval_cases d <;> decide

theorem canonicalDigits_ne_W (base : NumberSystem) (m : Nat) :
    ∀ c ∈ canonicalDigits base m, c ≠ ch 'W' := by
  intro c hc
  simp only [canonicalDigits, List.mem_map, List.mem_reverse] at hc
  obtain ⟨d, hd, rfl⟩ := hc
  have hlt := Nat.digits_lt_base (one_lt_radix base) hd
  apply specDigitChar_ne_W
  cases base <;> simp only [NumberSystem.radix] at hlt <;> omega

/-- No character of a value returned by `decimalToBase` is the letter `W`. -/
theorem decimalToBase_value_ne_W (n : Int) (base : NumberSystem) :
    ∀ c ∈ (decimalToBase n base).value, c ≠ ch 'W' := by
  rcases lt_trichotomy n 0 with hneg | rfl | hpos
  · rw [decimalToBase_neg base n hneg]
    intro c hc
    obtain rfl := List.eq_of_mem_replicate hc
    decide
  · intro c hc
    have hv : (decimalToBase 0 base).value = [ch '0'] := rfl
    rw [hv, List.mem_singleton] at hc
    subst hc
    decide
  · obtain ⟨m, rfl⟩ := Int.eq_ofNat_of_zero_le (le_of_lt hpos)
    have hm : 0 < m := by exact_mod_cast hpos
    rw [decimalToBase_pos base m hm]
    intro c hc
    rcases List.mem_append.mp hc with h | h
    · obtain rfl := List.eq_of_mem_replicate h
      decide
    · exact canonicalDigits_ne_W base m c h

/-- Every derivation line returned by `decimalToBase` starts with a character
other than the letter `W`. -/
theorem decimalToBase_steps_head (n : Int) (base : NumberSystem) :
    ∀ step ∈ (decimalToBase n base).steps, ∃ d ds, step = d :: ds ∧ d ≠ ch 'W' := by
  rcases lt_trichotomy n 0 with hneg | rfl | hpos
  · rw [decimalToBase_neg base n hneg]
    intro step hs
    simp at hs
  · intro step hs
    have hv : (decimalToBase 0 base).steps = [[ch '0']] := rfl
    rw [hv, List.mem_singleton] at hs
    exact ⟨ch '0', [], hs, by decide⟩
  · obtain ⟨m, rfl⟩ := Int.eq_ofNat_of_zero_le (le_of_lt hpos)
    have hm : 0 < m := by exact_mod_cast hpos
    rw [decimalToBase_pos base m hm]
    intro step hs
    simp only [List.mem_map, List.mem_range] at hs
    obtain ⟨j, _, rfl⟩ := hs
    obtain ⟨d, ds, hd, hne⟩ := to_string_natCast_head (m / base.radix ^ j)
    refine ⟨d, ds ++ (lit " : " ++ to_string (Int.ofNat base.radix) ++ lit " = "
      ++ to_string (Int.ofNat (m / base.radix ^ (j + 1))) ++ lit " // "
      ++ [specDigitChar (m / base.radix ^ j % base.radix)]), ?_, hne⟩
    rw [derivationLine, hd]
    simp

theorem isWarning_append_left (pre rest : CString)
    (hpre : ∃ d ds, pre = d :: ds ∧ d ≠ ch 'W') : isWarning (pre ++ rest) = false := by
  obtain ⟨d, ds, rfl, hne⟩ := hpre
  exact isWarning_cons d _ hne

/-- Nothing `printBaseConversion` writes for a result of `decimalToBase` is a
warning. -/
theorem printBaseConversion_no_warning (baseName : CString) (n : Int) (base : NumberSystem)
    (c : CChar) (asciiValue : Int) :
    ∀ chunk ∈ printBaseConversion baseName (decimalToBase n base) c asciiValue,
      isWarning chunk = false := by
  intro chunk hmem
  simp only [printBaseConversion, List.mem_append, List.mem_cons, List.mem_map,
    List.mem_singleton, List.not_mem_nil, or_false] at hmem
  rcases hmem with ((rfl | ⟨step, hstep, rfl⟩) | rfl) | rfl | rfl | rfl | rfl
  · simp only [List.append_assoc]
    exact isWarning_append_left _ _ ⟨_, _, rfl, by decide⟩
  · exact isWarning_append_left _ _ (decimalToBase_steps_head n base step hstep)
  · decide
  · simp only [List.append_assoc]
    exact isWarning_append_left _ _ ⟨_, _, rfl, by decide⟩
  · simp only [List.append_assoc]
    exact isWarning_append _ (ch ' ') _ (decimalToBase_value_ne_W n base) (by decide)
  · simp only [List.append_assoc]
    exact isWarning_append_left _ _ ⟨_, _, rfl, by decide⟩
  · simp only [List.append_assoc]
    exact isWarning_append_left _ _ ⟨_, _, rfl, by decide⟩

/-- Nothing `printConversions` writes for the three conversions of a code is
a warning. -/
theorem printConversions_no_warning (c : CChar) (asciiValue n : Int) :
    (printConversions c asciiValue (decimalToBase n .BINARY) (decimalToBase n .OCTAL)
      (decimalToBase n .HEXADECIMAL)).filter isWarning = [] := by
  rw [List.filter_eq_nil_iff]
  intro chunk hmem
  simp only [printConversions, List.mem_append, List.mem_singleton] at hmem
  rcases hmem with ((rfl | h) | h) | h
  · decide
  · simp [printBaseConversion_no_warning _ _ _ _ _ chunk h]
  · simp [printBaseConversion_no_warning _ _ _ _ _ chunk h]
  · simp [printBaseConversion_no_warning _ _ _ _ _ chunk h]

theorem warningLine_isWarning (c : CChar) : isWarning (warningLine c) = true := by
  simp only [isWarning, warningLine, List.append_assoc]
  exact List.isPrefixOf_iff_prefix.mpr (List.prefix_append _ _)

theorem process_body_skipped (st : ProcessState) (c : CChar) (h : isSkipped c = true) :
    process.body st c = { st with out := st.out ++ [warningLine c] } := by
  have hc : c > 255 := by simpa [isSkipped] using h
  simp only [process.body, if_pos hc]

theorem process_body_kept (st : ProcessState) (c : CChar) (h : isSkipped c = false) :
    process.body st c
      = { decimalValues := st.decimalValues ++ [to_string c]
          binaryValues := st.binaryValues ++ [(decimalToBase c .BINARY).value]
          octalValues := st.octalValues ++ [(decimalToBase c .OCTAL).value]
          hexValues := st.hexValues ++ [(decimalToBase c .HEXADECIMAL).value]
          out := st.out ++ printConversions c c (decimalToBase c .BINARY)
            (decimalToBase c .OCTAL) (decimalToBase c .HEXADECIMAL) } := by
  have hc : ¬ (c > 255) := by simpa [isSkipped] using h
  simp only [process.body, if_neg hc]

/-- Closed form of the loop of `process` started in any state. -/
theorem process_foldl (text : CString) :
    ∀ st : ProcessState,
      (text.foldl process.body st).decimalValues
          = st.decimalValues ++ (text.filter (fun c => !isSkipped c)).map to_string
        ∧ (text.foldl process.body st).binaryValues
          = st.binaryValues ++ (text.filter (fun c => !isSkipped c)).map
              (fun v => (decimalToBase v .BINARY).value)
        ∧ (text.foldl process.body st).octalValues
          = st.octalValues ++ (text.filter (fun c => !isSkipped c)).map
              (fun v => (decimalToBase v .OCTAL).value)
        ∧ (text.foldl process.body st).hexValues
          = st.hexValues ++ (text.filter (fun c => !isSkipped c)).map
              (fun v => (decimalToBase v .HEXADECIMAL).value)
        ∧ (text.foldl process.body st).out.filter isWarning
          = st.out.filter isWarning ++ (text.filter isSkipped).map warningLine := by
  induction text with
  | nil => intro st; simp
  | cons c rest ih =>
    intro st
    rw [List.foldl_cons]
    obtain ⟨h1, h2, h3, h4, h5⟩ := ih (process.body st c)
    rw [h1, h2, h3, h4, h5]
    cases hsk : isSkipped c
    · rw [process_body_kept st c hsk]
      simp [hsk, List.filter_append, printConversions_no_warning]
    · rw [process_body_skipped st c hsk]
      simp [hsk, List.filter_append, warningLine_isWarning]

theorem to_string_head (x : Int) : ∃ d ds, to_string x = d :: ds ∧ d ≠ ch 'W' := by
  rcases lt_or_le x 0 with hneg | hnn
  · refine ⟨ch '-', decimalDigits (x.natAbs + 1) x.natAbs, ?_, by decide⟩
    unfold to_string
    rw [if_pos hneg]
  · obtain ⟨a, rfl⟩ := Int.eq_ofNat_of_zero_le hnn
    exact to_string_natCast_head a

theorem charNote_not_warning (c : CChar) : isWarning (charNote c) = false := by
  unfold charNote
  split_ifs
  · simp only [List.append_assoc]
    exact isWarning_append_left _ _ ⟨_, _, rfl, by decide⟩
  · decide

theorem printValueSet_loop_no_warning (text : CString) (values : List CString)
    (hv : ∀ v ∈ values, isWarning v = false) :
    ∀ i, ∀ chunk ∈ printValueSet.loop text i values, isWarning chunk = false := by
  induction values with
  | nil => intro i chunk h; simp [printValueSet.loop] at h
  | cons v rest ih =>
    intro i chunk h
    simp only [printValueSet.loop, List.mem_append, List.mem_singleton] at h
    rcases h with ((rfl | rfl) | rfl) | h
    · exact hv _ (List.mem_cons_self _ _)
    · exact charNote_not_warning _
    · decide
    · exact ih (fun w hw => hv w (List.mem_cons_of_mem _ hw)) (i + 1) chunk h

theorem printValueSet_no_warning (self : ASCIIConverter) (label : CString)
    (values : List CString) (hl : ∃ d ds, label = d :: ds ∧ d ≠ ch 'W')
    (hv : ∀ v ∈ values, isWarning v = false) :
    ∀ chunk ∈ printValueSet self label values, isWarning chunk = false := by
  intro chunk h
  simp only [printValueSet, List.mem_append, List.mem_singleton] at h
  rcases h with (rfl | h) | rfl
  · exact isWarning_append_left _ _ hl
  · exact printValueSet_loop_no_warning self.text values hv 0 chunk h
  · decide

theorem decimalToBase_value_not_warning (n : Int) (base : NumberSystem) :
    isWarning (decimalToBase n base).value = false := by
  have h := decimalToBase_value_ne_W n base
  cases hv : (decimalToBase n base).value with
  | nil => exact isWarning_nil
  | cons d ds =>
    rw [hv] at h
    exact isWarning_cons d ds (h d (List.mem_cons_self _ _))

/-- The summary block written for the vectors `process` has built holds no
warning. -/
theorem printFinalResults_no_warning (self : ASCIIConverter) (kept : CString) :
    (printFinalResults self (kept.map to_string)
      (kept.map (fun v => (decimalToBase v .BINARY).value))
      (kept.map (fun v => (decimalToBase v .OCTAL).value))
      (kept.map (fun v => (decimalToBase v .HEXADECIMAL).value))).filter isWarning = [] := by
  rw [List.filter_eq_nil_iff]
  intro chunk hmem
  simp only [printFinalResults, List.mem_append, List.mem_singleton] at hmem
  have key : isWarning chunk = false := by
    rcases hmem with (((rfl | h) | h) | h) | h
    · decide
    · refine printValueSet_no_warning self _ _ ⟨_, _, rfl, by decide⟩ ?_ chunk h
      intro v hv
      obtain ⟨x, _, rfl⟩ := List.mem_map.mp hv
      exact isWarning_append_left _ [] (to_string_head x) |> fun e => by simpa using e
    · refine printValueSet_no_warning self _ _ ⟨_, _, rfl, by decide⟩ ?_ chunk h
      intro v hv
      obtain ⟨x, _, rfl⟩ := List.mem_map.mp hv
      exact decimalToBase_value_not_warning x _
    · refine printValueSet_no_warning self _ _ ⟨_, _, rfl, by decide⟩ ?_ chunk h
      intro v hv
      obtain ⟨x, _, rfl⟩ := List.mem_map.mp hv
      exact decimalToBase_value_not_warning x _
    · refine printValueSet_no_warning self _ _ ⟨_, _, rfl, by decide⟩ ?_ chunk h
      intro v hv
      obtain ⟨x, _, rfl⟩ := List.mem_map.mp hv
      exact decimalToBase_value_not_warning x _
  simp [key]

/-- The four vectors at the end of `process`, in closed form. -/
theorem process_vectors (text : CString) :
    (process ⟨text⟩).decimalValues = (text.filter (fun c => !isSkipped c)).map to_string
      ∧ (process ⟨text⟩).binaryValues
        = (text.filter (fun c => !isSkipped c)).map (fun v => (decimalToBase v .BINARY).value)
      ∧ (process ⟨text⟩).octalValues
        = (text.filter (fun c => !isSkipped c)).map (fun v => (decimalToBase v .OCTAL).value)
      ∧ (process ⟨text⟩).hexValues
        = (text.filter (fun c => !isSkipped c)).map
            (fun v => (decimalToBase v .HEXADECIMAL).value) := by
  obtain ⟨h1, h2, h3, h4, _⟩ := process_foldl text
    { decimalValues := [], binaryValues := [], octalValues := [], hexValues := [], out := [] }
  simp only [List.nil_append] at h1 h2 h3 h4
  exact ⟨h1, h2, h3, h4⟩

/-- The warnings among everything `process` writes, in closed form. -/
theorem process_warnings (text : CString) :
    (process ⟨text⟩).out.filter isWarning = (text.filter isSkipped).map warningLine := by
  obtain ⟨h1, h2, h3, h4, h5⟩ := process_foldl text
    { decimalValues := [], binaryValues := [], octalValues := [], hexValues := [], out := [] }
  simp only [List.nil_append, List.filter_nil] at h1 h2 h3 h4 h5
  simp only [process, process.loop, List.filter_append, h5, h1, h2, h3, h4,
    printFinalResults_no_warning, List.append_nil]

theorem printValueSet_loop_zip (values : List CString) :
    ∀ pre rest : CString, values.length ≤ rest.length →
      printValueSet.loop (pre ++ rest) pre.length values
        = (values.zip rest).flatMap (fun p => [p.1, charNote p.2, lit " "]) := by
  induction values with
  | nil => intro pre rest _; simp [printValueSet.loop]
  | cons v vs ih =>
    intro pre rest hlen
    cases rest with
    | nil => simp at hlen
    | cons c cs =>
      have hget : (pre ++ c :: cs).getD pre.length 0 = c := by
        rw [List.getD_eq_getElem?_getD, List.getElem?_append_right (le_refl _)]
        simp
      have hrec := ih (pre ++ [c]) cs (by simpa using hlen)
      rw [List.append_assoc, List.length_append, List.length_singleton] at hrec
      rw [printValueSet.loop, hget, List.zip_cons_cons, List.flatMap_cons]
      simp only [List.singleton_append, List.cons_append, List.nil_append] at hrec ⊢
      rw [hrec]
      rfl

theorem printValueSet_loop_map (f : CChar → CString) (rest : CString) :
    ∀ pre : CString, printValueSet.loop (pre ++ rest) pre.length (rest.map f)
      = rest.flatMap (fun c => [f c, charNote c, lit " "]) := by
  induction rest with
  | nil => intro pre; simp [printValueSet.loop]
  | cons c rest ih =>
    intro pre
    have hget : (pre ++ c :: rest).getD pre.length 0 = c := by
      rw [List.getD_eq_getElem?_getD, List.getElem?_append_right (le_refl _)]
      simp
    have hrec := ih (pre ++ [c])
    rw [List.append_assoc, List.length_append, List.length_singleton] at hrec
    rw [List.map_cons, printValueSet.loop, hget, List.flatMap_cons]
    simp only [List.singleton_append, List.cons_append, List.nil_append] at hrec ⊢
    rw [hrec]
    rfl

/-- The reading loop of `main` on a run of empty lines followed by a
non-empty line `t`: one prompt and one error per empty line, a last prompt,
and the loop is left with `t`. -/
theorem main_readLoop_eq (k : Nat) (t : CString) (rest : List CString) (ht : t ≠ []) :
    ∀ out : Output,
      main.readLoop (List.replicate k [] ++ t :: rest) out
        = some (t, out ++ (List.replicate k [promptLine, emptyErrorLine]).flatten
            ++ [promptLine]) := by
  induction k with
  | zero =>
    intro out
    have hne : t.isEmpty = false := by
      cases t with
      | nil => exact absurd rfl ht
      | cons _ _ => rfl
    simp [main.readLoop, hne]
  | succ k ih =>
    intro out
    rw [List.replicate_succ, List.cons_append, main.readLoop]
    simp only [List.isEmpty_nil, if_true]
    rw [ih]
    simp [List.replicate_succ, List.append_assoc]

/-- The reading loop of `main` is never left with an empty text. -/
theorem main_readLoop_nonempty :
    ∀ (input : List CString) (out : Output) (text : CString) (out2 : Output),
      main.readLoop input out = some (text, out2) → text ≠ [] := by
  intro input
  induction input with
  | nil => intro out text out2 h; simp [main.readLoop] at h
  | cons line rest ih =>
    intro out text out2 h
    rw [main.readLoop] at h
    cases line with
    | nil =>
      simp only [List.isEmpty_nil, if_true] at h
      exact ih _ _ _ h
    | cons c cs =>
      simp only [List.isEmpty_cons, Bool.false_eq_true, if_false, Option.some.injEq,
        Prod.mk.injEq] at h
      rw [← h.1]
      simp

/-- Every input that holds a non-empty line is a run of empty lines followed
by a non-empty line. -/
theorem exists_first_nonempty (input : List CString) (h : ∃ l ∈ input, l ≠ []) :
    ∃ (k : Nat) (t : CString) (rest : List CString),
      input = List.replicate k [] ++ t :: rest ∧ t ≠ [] := by
  induction input with
  | nil => obtain ⟨l, hl, _⟩ := h; simp at hl
  | cons line tail ih =>
    by_cases hline : line = []
    · subst hline
      have h2 : ∃ l ∈ tail, l ≠ [] := by
        obtain ⟨l, hl, hne⟩ := h
        rcases List.mem_cons.mp hl with rfl | hl
        · exact absurd rfl hne
        · exact ⟨l, hl, hne⟩
      obtain ⟨k, t, rest, heq, ht⟩ := ih h2
      exact ⟨k + 1, t, rest, by rw [heq, List.replicate_succ, List.cons_append], ht⟩
    · exact ⟨0, line, tail, by simp, hline⟩

theorem positional_eq_map_range {α : Type} (f : CChar → Nat → α) (s : CString) :
    positional f s
      = (List.range s.length).map (fun i => f (s.getD i 0) (s.length - 1 - i)) := by
  induction s with
  | nil => rfl
  | cons c rest ih =>
    rw [positional, ih, List.length_cons, List.range_succ_eq_map, List.map_cons, List.map_map]
    congr 1
    apply List.map_congr_left
    intro k _
    have hk : rest.length + 1 - 1 - (k + 1) = rest.length - 1 - k := by omega
    simp only [Function.comp, Nat.succ_eq_add_one, List.getD_cons_succ, hk]

theorem placeValues_eq_positional (base : NumberSystem) (s : CString) :
    placeValues base s
      = positional (fun c p => digitValue base c * base.toInt ^ p) s := by
  induction s with
  | nil => rfl
  | cons c rest ih => rw [placeValues, positional, ih]

theorem positional_map {α β : Type} (f : CChar → Nat → α) (g : α → β) (s : CString) :
    (positional f s).map g = positional (fun c p => g (f c p)) s := by
  induction s with
  | nil => rfl
  | cons c rest ih => rw [positional, List.map_cons, ih, positional]

theorem joinFrom_pos (ts : List CString) :
    ∀ i, 0 < i → joinFrom i ts = (ts.map (fun t => lit " + " ++ t)).flatten := by
  induction ts with
  | nil => intro i _; rfl
  | cons t ts ih =>
    intro i hi
    rw [joinFrom, if_pos hi, ih (i + 1) (Nat.succ_pos i), List.map_cons, List.flatten_cons]

theorem intercalate_cons (sep t : CString) (ts : List CString) :
    List.intercalate sep (t :: ts) = t ++ (ts.map (fun u => sep ++ u)).flatten := by
  induction ts generalizing t with
  | nil => simp [List.intercalate]
  | cons u us ih =>
    have h := ih u
    simp only [List.intercalate, List.intersperse, List.flatten_cons, List.map_cons] at h ⊢
    rw [h, List.append_assoc]

theorem joinFrom_zero (ts : List CString) :
    joinFrom 0 ts = List.intercalate (lit " + ") ts := by
  cases ts with
  | nil => simp [joinFrom, List.intercalate]
  | cons t ts =>
    rw [joinFrom, if_neg (Nat.lt_irrefl 0), joinFrom_pos ts 1 Nat.one_pos, intercalate_cons]
    rfl

/-- The expression the first loop of `baseToDecimal` builds. -/
theorem baseToDecimal_loop_expr (base : NumberSystem) (len : Nat) :
    ∀ (cs : List CChar) (i : Nat) (decimal : Int) (contributions : List Int) (expr : CString),
      i + cs.length = len →
      (baseToDecimal.loop base len cs i decimal contributions expr).2.2
        = expr ++ joinFrom i
            (positional (fun c p => expressionTerm base (digitValue base c) p) cs) := by
  intro cs
  induction cs with
  | nil => intro i decimal contributions expr _; simp [baseToDecimal.loop, positional, joinFrom]
  | cons c rest ih =>
    intro i decimal contributions expr hlen
    have hpow : Int.ofNat len - 1 - Int.ofNat i = Int.ofNat rest.length := by
      simp only [List.length_cons, Int.ofNat_eq_coe] at hlen ⊢
      omega
    have hlen2 : i + 1 + rest.length = len := by
      simp only [List.length_cons] at hlen
      omega
    simp only [baseToDecimal.loop, hpow]
    rw [ih _ _ _ _ hlen2, positional, joinFrom, expressionTerm, toInt_eq_radix]
    by_cases hi : i > 0
    · simp only [if_pos hi, List.append_assoc, Int.ofNat_eq_coe]
    · simp only [if_neg hi, List.append_assoc, List.nil_append, Int.ofNat_eq_coe]

/-- The text the second loop of `baseToDecimal` builds. -/
theorem baseToDecimal_contribLoop_eq (xs : List Int) :
    ∀ (i : Nat) (contribStr : CString),
      baseToDecimal.contribLoop xs i contribStr
        = contribStr ++ joinFrom i (xs.map to_string) := by
  induction xs with
  | nil => intro i contribStr; simp [baseToDecimal.contribLoop, joinFrom]
  | cons x rest ih =>
    intro i contribStr
    simp only [baseToDecimal.contribLoop]
    rw [ih, List.map_cons, joinFrom]
    by_cases hi : i > 0
    · simp only [if_pos hi, List.append_assoc]
    · simp only [if_neg hi, List.append_assoc, List.nil_append]

/-- The three fields of the result of `baseToDecimal` for every string: the
contributions added one by one, the terms of the expression joined by ` + `,
and the decimal texts of the contributions joined by ` + `. -/
theorem baseToDecimal_closed_form (s : CString) (base : NumberSystem) :
    (baseToDecimal s base).result = addAll 0 (baseToDecimal.terms s base)
      ∧ (baseToDecimal s base).expression
        = List.intercalate (lit " + ") ((List.range s.length).map
            (fun i => expressionTerm base (digitValue base (s.getD i 0)) (s.length - 1 - i)))
      ∧ (baseToDecimal s base).contributions
        = List.intercalate (lit " + ") ((baseToDecimal.terms s base).map to_string) := by
  refine ⟨?_, ?_, ?_⟩
  · rw [baseToDecimal_result, baseToDecimal_terms]
  · have h := baseToDecimal_loop_expr base s.length s 0 0 [] [] (by simp)
    rw [List.nil_append, joinFrom_zero, positional_eq_map_range] at h
    exact h
  · simp only [baseToDecimal]
    rw [baseToDecimal_contribLoop_eq, List.nil_append, joinFrom_zero]
    rfl

theorem placeValues_eq_map_range (base : NumberSystem) (s : CString) :
    placeValues base s
      = (List.range s.length).map
          (fun i => digitValue base (s.getD i 0) * base.toInt ^ (s.length - 1 - i)) := by
  rw [placeValues_eq_positional, positional_eq_map_range]

theorem getD_mem_of_lt (s : CString) (i : Nat) (h : i < s.length) : s.getD i 0 ∈ s := by
  rw [List.getD_eq_getElem s 0 h]
  exact List.getElem_mem h

theorem getHexValue_toUpperHex (c : CChar) : getHexValue (toUpperHex c) = getHexValue c := by
  have e0 : ch '0' = 48 := rfl
  have e9 : ch '9' = 57 := rfl
  have eA : ch 'A' = 65 := rfl
  have eF : ch 'F' = 70 := rfl
  have ea : ch 'a' = 97 := rfl
  have ef : ch 'f' = 102 := rfl
  simp only [getHexValue, toUpperHex, e0, e9, eA, eF, ea, ef, CChar, ge_iff_le]
  split_ifs <;> omega

theorem baseToDecimal_loop_toUpperHex (len : Nat) :
    ∀ (cs : List CChar) (i : Nat) (decimal : Int) (contributions : List Int) (expr : CString),
      baseToDecimal.loop .HEXADECIMAL len (cs.map toUpperHex) i decimal contributions expr
        = baseToDecimal.loop .HEXADECIMAL len cs i decimal contributions expr := by
  intro cs
  induction cs with
  | nil => intro i decimal contributions expr; rfl
  | cons c rest ih =>
    intro i decimal contributions expr
    have hd : digitValue .HEXADECIMAL (toUpperHex c) = digitValue .HEXADECIMAL c := by
      simp only [digitValue, if_true, getHexValue_toUpperHex]
    rw [List.map_cons]
    simp only [baseToDecimal.loop, hd, ih]

theorem canonicalDigits_length_le (base : NumberSystem) (m w : Nat) (hm : 0 < m)
    (hlt : m < base.radix ^ w) : (canonicalDigits base m).length ≤ w := by
  have hlen : (canonicalDigits base m).length = Nat.log base.radix m + 1 := by
    simp only [canonicalDigits, List.length_map, List.length_reverse]
    exact Nat.digits_len base.radix m (one_lt_radix base) (Nat.pos_iff_ne_zero.mp hm)
  have hlog := Nat.log_lt_of_lt_pow (Nat.pos_iff_ne_zero.mp hm) hlt
  omega

/-- The loop of `decimalToBase` leaves its state unchanged when it is entered
with a number that is not positive, however many iterations are allowed. -/
theorem decimalToBase_loop_nonpos (base : NumberSystem) (fuel : Nat) (n : Int) (h : n ≤ 0)
    (result : CString) (steps : List CString) :
    decimalToBase.loop base fuel n result steps = (result, steps) := by
  cases fuel with
  | zero => rfl
  | succ fuel =>
    have hn : ¬ (n > 0) := by omega
    rw [decimalToBase.loop, if_neg hn]

theorem placeValues_zeros_append (base : NumberSystem) (k : Nat) (s : CString) :
    placeValues base (List.replicate k (ch '0') ++ s)
      = List.replicate k 0 ++ placeValues base s := by
  have h0 : digitValue base (ch '0') = 0 := by cases base <;> decide
  induction k with
  | zero => simp
  | succ k ih =>
    rw [List.replicate_succ, List.cons_append, placeValues, ih, h0, zero_mul,
      List.replicate_succ, List.cons_append]

/-- Leading zeros add contributions 0 only, so they keep the computation of
`baseToDecimal` in range as long as the string stays short enough for every
power to be a finite `double`. -/
theorem inRange_leading_zeros (base : NumberSystem) (k : Nat) (s : CString)
    (hlen : k + s.length ≤ base.maxLength) (h : baseToDecimal.inRange s base) :
    baseToDecimal.inRange (List.replicate k (ch '0') ++ s) base := by
  unfold baseToDecimal.inRange at h ⊢
  rw [placeValues_zeros_append]
  obtain ⟨_, hterm, hsum⟩ := h
  refine ⟨?_, ?_, ?_⟩
  · intro p hp
    rw [List.length_append, List.length_replicate] at hp
    exact maxLength_pow_lt base p (by omega)
  · intro x hx
    rcases List.mem_append.mp hx with hz | hs
    · obtain rfl := List.eq_of_mem_replicate hz
      decide
    · exact hterm x hs
  · intro j
    rw [List.take_append_eq_append_take, List.sum_append, List.take_replicate,
      List.sum_replicate, smul_zero, zero_add, List.length_replicate]
    exact hsum (j - k)

/-- The machine contributions of leading zeros are 0 as long as every power is
a finite `double`; the contributions of the characters behind them are
unchanged. -/
theorem machineTerms_zeros_append (base : NumberSystem) (s : CString) :
    ∀ k : Nat, k + s.length ≤ base.maxLength →
      machineTerms base (List.replicate k (ch '0') ++ s)
        = List.replicate k 0 ++ machineTerms base s := by
  have h0 : digitValue base (ch '0') = 0 := by cases base <;> decide
  intro k
  induction k with
  | zero => intro _; simp
  | succ k ih =>
    intro hlen
    have hfin : base.toInt ^ (List.replicate k (ch '0') ++ s).length < DBL_BOUND := by
      apply maxLength_pow_lt
      rw [List.length_append, List.length_replicate]
      omega
    have hzero : inIntRange (0 * base.toInt ^ (List.replicate k (ch '0') ++ s).length) := by
      rw [zero_mul]; decide
    rw [List.replicate_succ, List.cons_append, machineTerms_cons, ih (by omega), h0,
      contribution_exact 0 base _ hfin hzero, zero_mul, List.replicate_succ, List.cons_append]

theorem addAll_replicate_zero (k : Nat) (decimal : Int) (h : inIntRange decimal)
    (xs : List Int) :
    addAll decimal (List.replicate k 0 ++ xs) = addAll decimal xs := by
  induction k with
  | zero => simp
  | succ k ih =>
    rw [List.replicate_succ, List.cons_append, addAll_cons, add_zero,
      wrapInt_of_inIntRange _ h, ih]

theorem hex_pow_256_not_finite : ¬ NumberSystem.HEXADECIMAL.toInt ^ 256 < DBL_BOUND := by
  have h : NumberSystem.HEXADECIMAL.toInt ^ 256 = DBL_BOUND := by
    rw [toInt_eq_radix]
    unfold DBL_BOUND
    rw [← Nat.cast_pow]
    rfl
  rw [h]
  exact lt_irrefl _

/-- The hexadecimal string of 255 characters `0` followed by `41`: its first
power, `16^256`, is beyond the range of `double`, so the first contribution is
`INT_MIN` and the result is `INT_MIN + 65`. -/
theorem long_zeros_41 :
    baseToDecimal.terms (List.replicate 255 (ch '0') ++ lit "41") .HEXADECIMAL
        = -2147483648 :: (List.replicate 254 0 ++ [64, 1])
      ∧ (baseToDecimal (List.replicate 255 (ch '0') ++ lit "41") .HEXADECIMAL).result
        = -2147483583 := by
  have hsplit : List.replicate 255 (ch '0') ++ lit "41"
      = ch '0' :: (List.replicate 254 (ch '0') ++ lit "41") := by
    rw [show (255 : Nat) = 254 + 1 from rfl, List.replicate_succ, List.cons_append]
  have hlen : (List.replicate 254 (ch '0') ++ lit "41").length = 256 := by
    rw [List.length_append, List.length_replicate]
    rfl
  have hrest := machineTerms_zeros_append .HEXADECIMAL (lit "41") 254 (by decide)
  have h41 : machineTerms .HEXADECIMAL (lit "41") = [64, 1] := by decide
  have hd : digitValue .HEXADECIMAL (ch '0') = 0 := by decide
  have hterms : machineTerms .HEXADECIMAL (List.replicate 255 (ch '0') ++ lit "41")
      = -2147483648 :: (List.replicate 254 0 ++ [64, 1]) := by
    rw [hsplit, machineTerms_cons, hrest, h41, hlen, hd,
      contribution_zero_of_not_finite .HEXADECIMAL 256 hex_pow_256_not_finite]
    rfl
  constructor
  · rw [baseToDecimal_terms, hterms]
  · rw [baseToDecimal_result, hterms, addAll_cons,
      addAll_replicate_zero 254 _ (by decide)]
    decide

theorem long_zeros_41_valid :
    ∀ c ∈ List.replicate 255 (ch '0') ++ lit "41", validDigit .HEXADECIMAL c := by
  intro c hc
  rcases List.mem_append.mp hc with h | h
  · obtain rfl := List.eq_of_mem_replicate h
    decide
  · exact (by decide : ∀ d ∈ lit "41", validDigit .HEXADECIMAL d) c h

theorem long_zeros_41_specValue :
    specValue .HEXADECIMAL (List.replicate 255 (ch '0') ++ lit "41") = 65 := by
  have h := placeValues_sum_of_valid .HEXADECIMAL _ long_zeros_41_valid
  rw [placeValues_zeros_append] at h
  have h41 : placeValues .HEXADECIMAL (lit "41") = [64, 1] := by decide
  rw [h41, List.sum_append, List.sum_replicate, smul_zero, zero_add] at h
  have h65 : ((65 : Nat) : Int) = (specValue .HEXADECIMAL
      (List.replicate 255 (ch '0') ++ lit "41") : Int) := by
    rw [← h]; rfl
  exact (Int.ofNat_inj.mp h65).symm

/-! ## The claims -/

/-- C1. Round trip: for every non-negative `n` representable as a 32-bit
`int` and every radix `r`, reconstructing the digit string that
`decimalToBase n r` returns gives back `n`, and no `int` of the reconstruction
leaves the 32-bit range. -/
theorem baseToDecimal_decimalToBase (n : Int) (r : NumberSystem) (h0 : 0 ≤ n)
    (hmax : n ≤ INT_MAX) :
    (baseToDecimal (decimalToBase n r).value r).result = n
      ∧ baseToDecimal.inRange (decimalToBase n r).value r := by
  obtain ⟨m, rfl⟩ := Int.eq_ofNat_of_zero_le h0
  rcases Nat.eq_zero_or_pos m with rfl | hpos
  · have hv : (decimalToBase ((0 : Nat) : Int) r).value = lit "0" := by
      cases r <;> rfl
    rw [hv]
    constructor
    · cases r <;> decide
    · apply inRange_of_nonneg
      · cases r <;> decide
      · intro c hc
        cases r <;> revert c <;> decide
      · cases r <;> decide
  · rw [decimalToBase_pos r m hpos]
    simp only []
    have hm : m ≤ 2147483647 := by
      unfold INT_MAX at hmax
      omega
    have hdigits : (canonicalDigits r m).length ≤ 31 := by
      apply canonicalDigits_length_le r m 31 hpos
      cases r <;> simp only [NumberSystem.radix] <;> norm_num <;> omega
    have hin : baseToDecimal.inRange
        (List.replicate (r.minWidth - (canonicalDigits r m).length) (ch '0')
          ++ canonicalDigits r m) r := by
      apply inRange_of_nonneg
      · rw [List.length_append, List.length_replicate]
        cases r <;> simp only [NumberSystem.minWidth, NumberSystem.maxLength] <;> omega
      · exact digitValue_padded_nonneg r _ m
      · rw [placeValues_padded]; exact hmax
    exact ⟨by rw [(baseToDecimal_exact _ _ hin).2, placeValues_padded], hin⟩

/-- Instance of C1 at `n = 65`, binary. -/
theorem baseToDecimal_decimalToBase_witness :
    (0 : Int) ≤ 65 ∧ (65 : Int) ≤ INT_MAX
      ∧ (baseToDecimal (decimalToBase 65 .BINARY).value .BINARY).result = 65 :=
  ⟨by decide, by decide,
    (baseToDecimal_decimalToBase 65 .BINARY (by decide) (by decide)).1⟩

/-- C2. For every `n > 0` and every radix `r`, the value of
`decimalToBase n r` is the canonical digit string `d` of `n` (most significant
digit first, uppercase hexadecimal digits, no leading zero) left-padded with
exactly `max(0, w - |d|)` characters `0`, where `w` is the minimum width of
`r`; its length is `max(w, |d|)` and `d` is kept whole at its end. -/
theorem decimalToBase_value_padded (n : Int) (r : NumberSystem) (h : 0 < n) :
    (decimalToBase n r).value
        = List.replicate (r.minWidth - (canonicalDigits r n.toNat).length) (ch '0')
            ++ canonicalDigits r n.toNat
      ∧ (decimalToBase n r).value.length = max r.minWidth (canonicalDigits r n.toNat).length
      ∧ canonicalDigits r n.toNat <:+ (decimalToBase n r).value
      ∧ (canonicalDigits r n.toNat).head? ≠ some (ch '0') := by
  obtain ⟨m, rfl⟩ := Int.eq_ofNat_of_zero_le (le_of_lt h)
  have hpos : 0 < m := by exact_mod_cast h
  rw [decimalToBase_pos r m hpos]
  rw [Int.toNat_ofNat]
  refine ⟨rfl, ?_, List.suffix_append _ _, canonicalDigits_head r m⟩
  simp only [List.length_append, List.length_replicate]
  omega

/-- Instance of C2 at `n = 65`, octal. -/
theorem decimalToBase_value_padded_witness :
    (0 : Int) < 65
      ∧ (decimalToBase 65 .OCTAL).value
        = List.replicate (NumberSystem.OCTAL.minWidth
              - (canonicalDigits .OCTAL (65 : Int).toNat).length) (ch '0')
            ++ canonicalDigits .OCTAL (65 : Int).toNat :=
  ⟨by decide, (decimalToBase_value_padded 65 .OCTAL (by decide)).1⟩

/-- C3 as stated fails: at `n = 0` the value is the single character `0` in
every radix, shorter than each minimum width, so the minimum-width bound does
not hold for all `n >= 0`. -/
theorem minimum_width_fails_at_zero :
    (decimalToBase 0 .BINARY).value.length = 1
      ∧ (decimalToBase 0 .OCTAL).value.length = 1
      ∧ (decimalToBase 0 .HEXADECIMAL).value.length = 1
      ∧ ¬ (∀ n : Int, 0 ≤ n →
            8 ≤ (decimalToBase n .BINARY).value.length
              ∧ 3 ≤ (decimalToBase n .OCTAL).value.length
              ∧ 2 ≤ (decimalToBase n .HEXADECIMAL).value.length) := by
  refine ⟨by decide, by decide, by decide, ?_⟩
  intro hall
  have h := (hall 0 (le_refl 0)).1
  revert h
  decide

/-- C3, amended. Minimum width invariant for every `n > 0`: the binary value
has at least 8 characters, the octal value at least 3 and the hexadecimal
value at least 2. -/
theorem minimum_width_of_pos (n : Int) (h : 0 < n) :
    8 ≤ (decimalToBase n .BINARY).value.length
      ∧ 3 ≤ (decimalToBase n .OCTAL).value.length
      ∧ 2 ≤ (decimalToBase n .HEXADECIMAL).value.length := by
  obtain ⟨m, rfl⟩ := Int.eq_ofNat_of_zero_le (le_of_lt h)
  have hpos : 0 < m := by exact_mod_cast h
  simp only [decimalToBase_pos _ m hpos, List.length_append, List.length_replicate,
    NumberSystem.minWidth]
  omega

/-- Instance of the amended C3 at `n = 1`. -/
theorem minimum_width_of_pos_witness :
    (0 : Int) < 1
      ∧ 8 ≤ (decimalToBase 1 .BINARY).value.length
      ∧ 3 ≤ (decimalToBase 1 .OCTAL).value.length
      ∧ 2 ≤ (decimalToBase 1 .HEXADECIMAL).value.length :=
  ⟨by decide, minimum_width_of_pos 1 (by decide)⟩

/-- C4. For every radix `r`, `decimalToBase 0 r` has the value `0` (one
character, not padded), exactly one derivation line, equal to `0`, and base
`r`. -/
theorem decimalToBase_zero (r : NumberSystem) :
    (decimalToBase 0 r).value = lit "0"
      ∧ (decimalToBase 0 r).steps = [lit "0"]
      ∧ (decimalToBase 0 r).base = r
      ∧ (decimalToBase 0 r).value ≠ lit "00" := by
  refine ⟨rfl, rfl, rfl, ?_⟩
  cases r <;> decide

/-- C5. The conversions of the code 65: `01000001` in binary, `101` in octal
and `41` in hexadecimal. -/
theorem decimalToBase_65 :
    (decimalToBase 65 .BINARY).value = lit "01000001"
      ∧ (decimalToBase 65 .OCTAL).value = lit "101"
      ∧ (decimalToBase 65 .HEXADECIMAL).value = lit "41" := by
  decide

/-- C6 as stated fails: the hexadecimal string of 255 characters `0` followed
by `41` is made of valid digits and represents 65, below `2^31`, but its first
power `16^256` is beyond the range of `double`, `0 * infinity` is a NaN, and
the result of `baseToDecimal` is `-2147483583`, not 65. -/
theorem baseToDecimal_result_fails_long_string :
    (∀ c ∈ List.replicate 255 (ch '0') ++ lit "41", validDigit .HEXADECIMAL c)
      ∧ specValue .HEXADECIMAL (List.replicate 255 (ch '0') ++ lit "41") < 2 ^ 31
      ∧ ((∑ i in Finset.range (List.replicate 255 (ch '0') ++ lit "41").length,
            specDigitValue .HEXADECIMAL ((List.replicate 255 (ch '0') ++ lit "41").getD i 0)
              * NumberSystem.HEXADECIMAL.radix
                ^ ((List.replicate 255 (ch '0') ++ lit "41").length - 1 - i) : Nat) : Int) = 65
      ∧ (baseToDecimal (List.replicate 255 (ch '0') ++ lit "41") .HEXADECIMAL).result
        = -2147483583
      ∧ ¬ (∀ (s : CString) (r : NumberSystem), (∀ c ∈ s, validDigit r c) →
            specValue r s < 2 ^ 31 →
            (baseToDecimal s r).result
              = ((∑ i in Finset.range s.length,
                    specDigitValue r (s.getD i 0) * r.radix ^ (s.length - 1 - i) : Nat)
                  : Int)) := by
  have hspec := long_zeros_41_specValue
  have hres := long_zeros_41.2
  have hsum : ((∑ i in Finset.range (List.replicate 255 (ch '0') ++ lit "41").length,
      specDigitValue .HEXADECIMAL ((List.replicate 255 (ch '0') ++ lit "41").getD i 0)
        * NumberSystem.HEXADECIMAL.radix
          ^ ((List.replicate 255 (ch '0') ++ lit "41").length - 1 - i) : Nat) : Int) = 65 := by
    have h : specValue .HEXADECIMAL (List.replicate 255 (ch '0') ++ lit "41") = 65 := hspec
    unfold specValue at h
    rw [h]
    rfl
  refine ⟨long_zeros_41_valid, by rw [hspec]; norm_num, hsum, hres, ?_⟩
  intro hall
  have h := hall _ .HEXADECIMAL long_zeros_41_valid (by rw [hspec]; norm_num)
  rw [hres, hsum] at h
  exact absurd h (by decide)

/-- C6, amended. For every radix `r` and every string `s` of valid digits of
`r` whose represented value is below `2^31` and whose length is at most 1024
(binary), 342 (octal) or 256 (hexadecimal), so that every power is a finite
`double`, the result of `baseToDecimal s r` is the sum over the indices `i` of
`digitValue(s[i]) * r^(|s| - 1 - i)`, computed inside the range of `double` and
of `int`; and `baseToDecimal "41"` in hexadecimal has the result 65. -/
theorem baseToDecimal_result_eq_specValue (s : CString) (r : NumberSystem)
    (hvalid : ∀ c ∈ s, validDigit r c) (hlt : specValue r s < 2 ^ 31)
    (hlen : s.length ≤ r.maxLength) :
    (baseToDecimal s r).result
        = ((∑ i in Finset.range s.length,
              specDigitValue r (s.getD i 0) * r.radix ^ (s.length - 1 - i) : Nat) : Int)
      ∧ baseToDecimal.inRange s r
      ∧ (baseToDecimal (lit "41") .HEXADECIMAL).result = 65 := by
  have hsum := placeValues_sum_of_valid r s hvalid
  have hin : baseToDecimal.inRange s r := by
    apply inRange_of_nonneg _ _ hlen
    · intro c hc
      rw [digitValue_of_valid r c (hvalid c hc)]
      exact Int.ofNat_nonneg _
    · rw [hsum]
      unfold INT_MAX
      omega
  refine ⟨?_, hin, by decide⟩
  rw [(baseToDecimal_exact s r hin).2, hsum, specValue]

/-- Instance of the amended C6 at the hexadecimal string `fF`. -/
theorem baseToDecimal_result_eq_specValue_witness :
    (∀ c ∈ lit "fF", validDigit .HEXADECIMAL c)
      ∧ specValue .HEXADECIMAL (lit "fF") < 2 ^ 31
      ∧ (lit "fF").length ≤ NumberSystem.HEXADECIMAL.maxLength
      ∧ (baseToDecimal (lit "fF") .HEXADECIMAL).result
        = ((∑ i in Finset.range (lit "fF").length,
              specDigitValue .HEXADECIMAL ((lit "fF").getD i 0)
                * NumberSystem.HEXADECIMAL.radix ^ ((lit "fF").length - 1 - i) : Nat) : Int) :=
  ⟨by decide, by decide, by decide,
    (baseToDecimal_result_eq_specValue (lit "fF") .HEXADECIMAL (by decide) (by decide)
      (by decide)).1⟩

/-- C7. For every `n > 0` and radix `r`, the steps of `decimalToBase n r` are
exactly `k` lines, `k` the number of significant base-`r` digits of `n`, the
`j`-th being `<a> : <r> = <b> // <g>` with `a = n div r^j`, `b = n div r^(j+1)`
in decimal and `g` the digit character of `a mod r`; the first dividend is
`n`, the last quotient is 0, and the digits `g` read from the last line to the
first spell the value without its padding. -/
theorem decimalToBase_steps (n : Int) (r : NumberSystem) (h : 0 < n) :
    (decimalToBase n r).steps.length = Nat.log r.radix n.toNat + 1
      ∧ (decimalToBase n r).steps
          = (List.range (Nat.log r.radix n.toNat + 1)).map (fun j =>
              to_string (Int.ofNat (n.toNat / r.radix ^ j)) ++ lit " : "
                ++ to_string (Int.ofNat r.radix) ++ lit " = "
                ++ to_string (Int.ofNat (n.toNat / r.radix ^ (j + 1))) ++ lit " // "
                ++ [specDigitChar (n.toNat / r.radix ^ j % r.radix)])
      ∧ Int.ofNat (n.toNat / r.radix ^ 0) = n
      ∧ n.toNat / r.radix ^ (Nat.log r.radix n.toNat + 1) = 0
      ∧ (decimalToBase n r).value
          = List.replicate (r.minWidth - (Nat.log r.radix n.toNat + 1)) (ch '0')
            ++ ((List.range (Nat.log r.radix n.toNat + 1)).map
                (fun j => specDigitChar (n.toNat / r.radix ^ j % r.radix))).reverse := by
  obtain ⟨m, rfl⟩ := Int.eq_ofNat_of_zero_le (le_of_lt h)
  have hpos : 0 < m := by exact_mod_cast h
  have hk : (Nat.digits r.radix m).length = Nat.log r.radix m + 1 :=
    Nat.digits_len r.radix m (one_lt_radix r) (Nat.pos_iff_ne_zero.mp hpos)
  have hcan := canonicalDigits_eq_map_range r m
  rw [hk] at hcan
  have hlen : (canonicalDigits r m).length = Nat.log r.radix m + 1 := by
    rw [hcan]; simp
  rw [decimalToBase_pos r m hpos, Int.toNat_ofNat]
  simp only [hk, hlen]
  refine ⟨by simp, rfl, by simp, ?_, by rw [hcan]⟩
  exact Nat.div_eq_of_lt (Nat.lt_pow_succ_log_self (one_lt_radix r) m)

/-- Instance of C7 at `n = 65`, hexadecimal: two lines. -/
theorem decimalToBase_steps_witness :
    (0 : Int) < 65
      ∧ (decimalToBase 65 .HEXADECIMAL).steps.length
        = Nat.log NumberSystem.HEXADECIMAL.radix (65 : Int).toNat + 1 :=
  ⟨by decide, (decimalToBase_steps 65 .HEXADECIMAL (by decide)).1⟩

/-- C8. Final summary format: for every vector of values no longer than the
text and every index `i` of it, `printValueSet` writes `values[i]`, then the character
`text[i]` of the original input in parentheses when its code is in [32, 126] and
the words `non-printable` in parentheses otherwise, then one space; for the
input `A` the decimal summary line is `Decimal: 65 (A) ` and the binary one
`Binary: 01000001 (A) `, which contain `65 (A)` and `01000001 (A)`; and for a
text whose characters all have codes in [32, 126], the `i`-th entry of each of
the four summary lines is the entry of the `i`-th input character, annotated
with that character. -/
theorem printValueSet_summary (text label : CString) (values : List CString)
    (hlen : values.length ≤ text.length) :
    printValueSet ⟨text⟩ label values
        = [label ++ lit ": "]
          ++ (values.zip text).flatMap
              (fun p => [p.1,
                if 32 ≤ p.2 ∧ p.2 ≤ 126 then lit " (" ++ [p.2] ++ lit ")"
                  else lit " (non-printable)",
                lit " "])
          ++ [lit "\n"]
      ∧ (printValueSet ⟨lit "A"⟩ (lit "Decimal") (process ⟨lit "A"⟩).decimalValues).flatten
        = lit "Decimal: 65 (A) \n"
      ∧ (printValueSet ⟨lit "A"⟩ (lit "Binary") (process ⟨lit "A"⟩).binaryValues).flatten
        = lit "Binary: 01000001 (A) \n"
      ∧ lit "65 (A)" <:+:
          (printValueSet ⟨lit "A"⟩ (lit "Decimal") (process ⟨lit "A"⟩).decimalValues).flatten
      ∧ lit "01000001 (A)" <:+:
          (printValueSet ⟨lit "A"⟩ (lit "Binary") (process ⟨lit "A"⟩).binaryValues).flatten
      ∧ ((∀ c ∈ text, 32 ≤ c ∧ c ≤ 126) →
          (process ⟨text⟩).out
            = (process.loop ⟨text⟩).out ++ [lit "\nFinal Results:\n"]
              ++ ([lit "Decimal: "]
                  ++ text.flatMap (fun c => [to_string c, lit " (" ++ [c] ++ lit ")", lit " "])
                  ++ [lit "\n"])
              ++ ([lit "Binary: "]
                  ++ text.flatMap (fun c =>
                      [(decimalToBase c .BINARY).value, lit " (" ++ [c] ++ lit ")", lit " "])
                  ++ [lit "\n"])
              ++ ([lit "Octal: "]
                  ++ text.flatMap (fun c =>
                      [(decimalToBase c .OCTAL).value, lit " (" ++ [c] ++ lit ")", lit " "])
                  ++ [lit "\n"])
              ++ ([lit "Hexadecimal: "]
                  ++ text.flatMap (fun c =>
                      [(decimalToBase c .HEXADECIMAL).value, lit " (" ++ [c] ++ lit ")",
                        lit " "])
                  ++ [lit "\n"])) := by
  refine ⟨?_, by decide, by decide, by decide, by decide, ?_⟩
  · have h := printValueSet_loop_zip values [] text hlen
    rw [List.nil_append, List.length_nil] at h
    rw [printValueSet, h]
    rfl
  · intro hprint
    have hfilter : text.filter (fun c => !isSkipped c) = text := by
      rw [List.filter_eq_self]
      intro c hc
      have h := (hprint c hc).2
      have h2 : ¬ (c > 255) := by
        unfold CChar at *
        omega
      simp [isSkipped, h2]
    obtain ⟨h1, h2, h3, h4⟩ := process_vectors text
    rw [hfilter] at h1 h2 h3 h4
    have hl1 : (process.loop ⟨text⟩).decimalValues = text.map to_string := h1
    have hl2 : (process.loop ⟨text⟩).binaryValues
        = text.map (fun v => (decimalToBase v .BINARY).value) := h2
    have hl3 : (process.loop ⟨text⟩).octalValues
        = text.map (fun v => (decimalToBase v .OCTAL).value) := h3
    have hl4 : (process.loop ⟨text⟩).hexValues
        = text.map (fun v => (decimalToBase v .HEXADECIMAL).value) := h4
    have hann : ∀ f : CChar → CString,
        text.flatMap (fun c => [f c, charNote c, lit " "])
          = text.flatMap (fun c => [f c, lit " (" ++ [c] ++ lit ")", lit " "]) := by
      intro f
      apply List.flatMap_congr
      intro c hc
      rw [charNote, if_pos (hprint c hc)]
    have hline : ∀ (label : CString) (f : CChar → CString),
        printValueSet ⟨text⟩ label (text.map f)
          = [label ++ lit ": "]
            ++ text.flatMap (fun c => [f c, lit " (" ++ [c] ++ lit ")", lit " "])
            ++ [lit "\n"] := by
      intro label f
      have h := printValueSet_loop_map f text []
      rw [List.nil_append, List.length_nil] at h
      rw [printValueSet, h, hann]
    simp only [process, printFinalResults, hl1, hl2, hl3, hl4, hline, List.append_assoc]
    rfl

/-- Instance of C8 on the text `Hi` with the vector of its decimal codes. -/
theorem printValueSet_summary_witness :
    [lit "72", lit "105"].length ≤ (lit "Hi").length
      ∧ printValueSet ⟨lit "Hi"⟩ (lit "Decimal") [lit "72", lit "105"]
        = [lit "Decimal: "]
          ++ ([lit "72", lit "105"].zip (lit "Hi")).flatMap
              (fun p => [p.1,
                if 32 ≤ p.2 ∧ p.2 ≤ 126 then lit " (" ++ [p.2] ++ lit ")"
                  else lit " (non-printable)",
                lit " "])
          ++ [lit "\n"]
      ∧ (∀ c ∈ lit "Hi", 32 ≤ c ∧ c ≤ 126)
      ∧ (process ⟨lit "Hi"⟩).out
        = (process.loop ⟨lit "Hi"⟩).out ++ [lit "\nFinal Results:\n"]
          ++ ([lit "Decimal: "]
              ++ (lit "Hi").flatMap
                  (fun c => [to_string c, lit " (" ++ [c] ++ lit ")", lit " "])
              ++ [lit "\n"])
          ++ ([lit "Binary: "]
              ++ (lit "Hi").flatMap (fun c =>
                  [(decimalToBase c .BINARY).value, lit " (" ++ [c] ++ lit ")", lit " "])
              ++ [lit "\n"])
          ++ ([lit "Octal: "]
              ++ (lit "Hi").flatMap (fun c =>
                  [(decimalToBase c .OCTAL).value, lit " (" ++ [c] ++ lit ")", lit " "])
              ++ [lit "\n"])
          ++ ([lit "Hexadecimal: "]
              ++ (lit "Hi").flatMap (fun c =>
                  [(decimalToBase c .HEXADECIMAL).value, lit " (" ++ [c] ++ lit ")",
                    lit " "])
              ++ [lit "\n"]) :=
  ⟨by decide,
    (printValueSet_summary (lit "Hi") (lit "Decimal") [lit "72", lit "105"] (by decide)).1,
    by decide,
    (printValueSet_summary (lit "Hi") (lit "Decimal") [lit "72", lit "105"]
      (by decide)).2.2.2.2.2 (by decide)⟩

/-- C9. Parallel accumulators: after `process` has run on any text, the four
vectors have the same length, the number of characters that were not skipped,
and their `j`-th entries are the decimal string, the binary value, the octal
value and the hexadecimal value of the code of the `j`-th character that was
not skipped, in input order. -/
theorem process_accumulators_parallel (text : CString) :
    (process ⟨text⟩).decimalValues.length = (text.filter (fun c => !isSkipped c)).length
      ∧ (process ⟨text⟩).binaryValues.length = (text.filter (fun c => !isSkipped c)).length
      ∧ (process ⟨text⟩).octalValues.length = (text.filter (fun c => !isSkipped c)).length
      ∧ (process ⟨text⟩).hexValues.length = (text.filter (fun c => !isSkipped c)).length
      ∧ (process ⟨text⟩).decimalValues
        = (text.filter (fun c => !isSkipped c)).map (fun v => to_string v)
      ∧ (process ⟨text⟩).binaryValues
        = (text.filter (fun c => !isSkipped c)).map (fun v => (decimalToBase v .BINARY).value)
      ∧ (process ⟨text⟩).octalValues
        = (text.filter (fun c => !isSkipped c)).map (fun v => (decimalToBase v .OCTAL).value)
      ∧ (process ⟨text⟩).hexValues
        = (text.filter (fun c => !isSkipped c)).map
            (fun v => (decimalToBase v .HEXADECIMAL).value) := by
  obtain ⟨h1, h2, h3, h4⟩ := process_vectors text
  refine ⟨?_, ?_, ?_, ?_, h1, h2, h3, h4⟩
  · rw [h1, List.length_map]
  · rw [h2, List.length_map]
  · rw [h3, List.length_map]
  · rw [h4, List.length_map]

/-- C11. Empty-input rejection: every sequence of input lines that holds a
non-empty line is `k` empty lines followed by a first non-empty line `t`, and
on it `main` terminates with exit code 0 after writing the prompt and the
error message once for each of the `k` empty lines, the prompt once more for
`t`, the announcement of `t` and the output of the converter run on `t`; the
text the reading loop hands to the converter is never empty. -/
theorem main_rejects_empty_lines (input : List CString) (h : ∃ l ∈ input, l ≠ []) :
    (∃ (k : Nat) (t : CString) (rest : List CString),
        input = List.replicate k [] ++ t :: rest ∧ t ≠ []
          ∧ main.readLoop input []
            = some (t, (List.replicate k [promptLine, emptyErrorLine]).flatten ++ [promptLine])
          ∧ main input
            = some (0, (List.replicate k [promptLine, emptyErrorLine]).flatten ++ [promptLine]
                ++ [lit "\nConverting ASCII '" ++ t
                      ++ lit "' to Decimal, Binary, Octal, and Hexadecimal!\n\n"]
                ++ (process ⟨t⟩).out))
      ∧ ∀ (lines : List CString) (text : CString) (out : Output),
          main.readLoop lines [] = some (text, out) → text ≠ [] := by
  refine ⟨?_, fun lines text out hrun => main_readLoop_nonempty lines [] text out hrun⟩
  obtain ⟨k, t, rest, heq, ht⟩ := exists_first_nonempty input h
  have hloop := main_readLoop_eq k t rest ht []
  rw [List.nil_append] at hloop
  refine ⟨k, t, rest, heq, ht, ?_, ?_⟩
  · rw [heq, hloop]
  · rw [main, heq, hloop]

/-- Instance of C11 on two empty lines, the line `A` and a further line. -/
theorem main_rejects_empty_lines_witness :
    (∃ l ∈ [[], [], lit "A", lit "B"], l ≠ [])
      ∧ main [[], [], lit "A", lit "B"]
        = some (0, [promptLine, emptyErrorLine, promptLine, emptyErrorLine, promptLine,
              lit "\nConverting ASCII 'A' to Decimal, Binary, Octal, and Hexadecimal!\n\n"]
            ++ (process ⟨lit "A"⟩).out) := by
  have hex : ∃ l ∈ [[], [], lit "A", lit "B"], l ≠ [] := ⟨lit "A", by decide, by decide⟩
  refine ⟨hex, ?_⟩
  obtain ⟨k, t, rest, heq, ht, _, hmain⟩ := (main_rejects_empty_lines _ hex).1
  have hk : k = 2 ∧ t = lit "A" := by
    match k, heq with
    | 0, heq => simp at heq; exact absurd heq.1 ht
    | 1, heq => simp [List.replicate] at heq; exact absurd heq.1 ht
    | 2, heq => simp [List.replicate] at heq; exact ⟨rfl, heq.1.symm⟩
    | k + 3, heq =>
      simp [List.replicate_succ] at heq
      exact absurd heq.1 (by decide)
  obtain ⟨rfl, rfl⟩ := hk
  rw [hmain]
  rfl

/-- C12 as stated fails: on the hexadecimal string of 255 characters `0`
followed by `41` (valid digits, value 65) the first contribution is not
`0 * 16^256 = 0` but `-2147483648`, with which the text of the contributions
starts, and the result is `-2147483583`, not the sum 65 of the `v_i`. -/
theorem baseToDecimal_contributions_fail_long_string :
    (∀ c ∈ List.replicate 255 (ch '0') ++ lit "41", validDigit .HEXADECIMAL c)
      ∧ specValue .HEXADECIMAL (List.replicate 255 (ch '0') ++ lit "41") < 2 ^ 31
      ∧ (baseToDecimal.terms (List.replicate 255 (ch '0') ++ lit "41") .HEXADECIMAL).head?
        = some (-2147483648)
      ∧ lit "-2147483648"
        <+: (baseToDecimal (List.replicate 255 (ch '0') ++ lit "41") .HEXADECIMAL).contributions
      ∧ ¬ (lit "0"
        <+: (baseToDecimal (List.replicate 255 (ch '0') ++ lit "41") .HEXADECIMAL).contributions)
      ∧ (baseToDecimal (List.replicate 255 (ch '0') ++ lit "41") .HEXADECIMAL).result
        = -2147483583
      ∧ Int.ofNat (specValue .HEXADECIMAL (List.replicate 255 (ch '0') ++ lit "41")) = 65 := by
  obtain ⟨hterms, hres⟩ := long_zeros_41
  have hspec := long_zeros_41_specValue
  have hcon := (baseToDecimal_closed_form
    (List.replicate 255 (ch '0') ++ lit "41") .HEXADECIMAL).2.2
  rw [hterms, List.map_cons, intercalate_cons] at hcon
  have hmin : to_string (-2147483648) = lit "-2147483648" := by decide
  rw [hmin] at hcon
  refine ⟨long_zeros_41_valid, by rw [hspec]; norm_num, by rw [hterms]; rfl, ?_, ?_, hres,
    by rw [hspec]; rfl⟩
  · rw [hcon]
    exact List.prefix_append _ _
  · rw [hcon]
    intro hpre
    obtain ⟨t, ht⟩ := hpre
    have hhead := congrArg List.head? ht
    change some (ch '0') = some (ch '-') at hhead
    exact absurd (Option.some.inj hhead) (by decide)

/-- C12, amended. For every radix `r` and every string `s` of `L` valid digits
whose value is below `2^31`, with `L` at most 1024 (binary), 342 (octal) or 256
(hexadecimal), the expression of `baseToDecimal s r` is the `L` terms
`(<d_i> * <r>^<L-1-i>)` joined by ` + ` in the order of the digits, the
contributions are the `L` decimal numbers `v_i = d_i * r^(L-1-i)` joined by
` + ` in the same order, and the result is the sum of the `v_i`, computed
inside the range of `double` and of `int`; each string has one term per digit
of `s`. -/
theorem baseToDecimal_expression_contributions (s : CString) (r : NumberSystem)
    (hvalid : ∀ c ∈ s, validDigit r c) (hlt : specValue r s < 2 ^ 31)
    (hlen : s.length ≤ r.maxLength) :
    (baseToDecimal s r).expression
        = List.intercalate (lit " + ") ((List.range s.length).map (fun i =>
            lit "(" ++ to_string (Int.ofNat (specDigitValue r (s.getD i 0))) ++ lit " * "
              ++ to_string (Int.ofNat r.radix) ++ lit "^"
              ++ to_string (Int.ofNat (s.length - 1 - i)) ++ lit ")"))
      ∧ (baseToDecimal s r).contributions
        = List.intercalate (lit " + ") ((List.range s.length).map (fun i =>
            to_string (Int.ofNat
              (specDigitValue r (s.getD i 0) * r.radix ^ (s.length - 1 - i)))))
      ∧ (baseToDecimal s r).result
        = ((List.range s.length).map (fun i =>
            Int.ofNat (specDigitValue r (s.getD i 0) * r.radix ^ (s.length - 1 - i)))).sum
      ∧ ((List.range s.length).map (fun i =>
            Int.ofNat (specDigitValue r (s.getD i 0) * r.radix ^ (s.length - 1 - i)))).length
          = s.length
      ∧ baseToDecimal.inRange s r := by
  obtain ⟨_, hexpr, hcon⟩ := baseToDecimal_closed_form s r
  have hin : baseToDecimal.inRange s r := by
    apply inRange_of_nonneg _ _ hlen
    · intro c hc
      rw [digitValue_of_valid r c (hvalid c hc)]
      exact Int.ofNat_nonneg _
    · rw [placeValues_sum_of_valid r s hvalid]
      unfold INT_MAX
      omega
  obtain ⟨hterms, hres⟩ := baseToDecimal_exact s r hin
  have hdv : ∀ i ∈ List.range s.length,
      digitValue r (s.getD i 0) = Int.ofNat (specDigitValue r (s.getD i 0)) := by
    intro i hi
    exact digitValue_of_valid r _ (hvalid _ (getD_mem_of_lt s i (List.mem_range.mp hi)))
  have hterm : ∀ i ∈ List.range s.length,
      digitValue r (s.getD i 0) * r.toInt ^ (s.length - 1 - i)
        = Int.ofNat (specDigitValue r (s.getD i 0) * r.radix ^ (s.length - 1 - i)) := by
    intro i hi
    rw [hdv i hi, toInt_eq_radix]
    simp
  have hplace : placeValues r s = (List.range s.length).map (fun i =>
      Int.ofNat (specDigitValue r (s.getD i 0) * r.radix ^ (s.length - 1 - i))) := by
    rw [placeValues_eq_map_range]
    exact List.map_congr_left hterm
  refine ⟨?_, ?_, ?_, by simp, hin⟩
  · rw [hexpr]
    congr 1
    apply List.map_congr_left
    intro i hi
    rw [hdv i hi]
    rfl
  · rw [hcon, hterms, hplace, List.map_map]
    rfl
  · rw [hres, hplace]

/-- Instance of the amended C12 at the octal string `142`. -/
theorem baseToDecimal_expression_contributions_witness :
    (∀ c ∈ lit "142", validDigit .OCTAL c)
      ∧ specValue .OCTAL (lit "142") < 2 ^ 31
      ∧ (lit "142").length ≤ NumberSystem.OCTAL.maxLength
      ∧ (baseToDecimal (lit "142") .OCTAL).contributions
        = List.intercalate (lit " + ") ((List.range (lit "142").length).map (fun i =>
            to_string (Int.ofNat
              (specDigitValue .OCTAL ((lit "142").getD i 0)
                * NumberSystem.OCTAL.radix ^ ((lit "142").length - 1 - i)))))
      ∧ (baseToDecimal (lit "142") .OCTAL).expression = lit "(1 * 8^2) + (4 * 8^1) + (2 * 8^0)"
      ∧ (baseToDecimal (lit "142") .OCTAL).contributions = lit "64 + 32 + 2" :=
  ⟨by decide, by decide, by decide,
    (baseToDecimal_expression_contributions (lit "142") .OCTAL (by decide) (by decide)
      (by decide)).2.1,
    by decide, by decide⟩

/-- C13. Hexadecimal case-insensitivity: for every string `s`, `baseToDecimal`
in hexadecimal returns the same result, the same expression and the same
contributions for `s` and for `s` with every letter `a`-`f` replaced by its
uppercase form. -/
theorem baseToDecimal_hex_case_insensitive (s : CString) :
    (baseToDecimal s .HEXADECIMAL).result
        = (baseToDecimal (s.map toUpperHex) .HEXADECIMAL).result
      ∧ (baseToDecimal s .HEXADECIMAL).expression
        = (baseToDecimal (s.map toUpperHex) .HEXADECIMAL).expression
      ∧ (baseToDecimal s .HEXADECIMAL).contributions
        = (baseToDecimal (s.map toUpperHex) .HEXADECIMAL).contributions
      ∧ (lit "fF1a").map toUpperHex = lit "FF1A"
      ∧ (baseToDecimal (lit "ff") .HEXADECIMAL).result = 255 := by
  have h : baseToDecimal (s.map toUpperHex) .HEXADECIMAL = baseToDecimal s .HEXADECIMAL := by
    simp only [baseToDecimal, List.length_map, baseToDecimal_loop_toUpperHex]
  rw [h]
  exact ⟨rfl, rfl, rfl, by decide, by decide⟩

/-- C14. Digit alphabet: for every `n > 0` every character of the value of
`decimalToBase n r` is a digit of the radix `r` (`0` or `1` for binary, `0`-`7`
for octal, `0`-`9` or uppercase `A`-`F` for hexadecimal); the remainders 10..15
are mapped to `A`..`F`; and the remainder of a positive number, which indexes
the hexadecimal digit table, is within 0..15, inside the table. -/
theorem decimalToBase_digit_alphabet (n : Int) (r : NumberSystem) (h : 0 < n) :
    (∀ c ∈ (decimalToBase n r).value,
        match r with
        | .BINARY => c = ch '0' ∨ c = ch '1'
        | .OCTAL => ch '0' ≤ c ∧ c ≤ ch '7'
        | .HEXADECIMAL => (ch '0' ≤ c ∧ c ≤ ch '9') ∨ (ch 'A' ≤ c ∧ c ≤ ch 'F'))
      ∧ (∀ d : Int, 10 ≤ d → d ≤ 15 → digitChar .HEXADECIMAL d = ch 'A' + (d - 10))
      ∧ (∀ number : Int, number > 0 →
          0 ≤ number.tmod NumberSystem.HEXADECIMAL.toInt
            ∧ number.tmod NumberSystem.HEXADECIMAL.toInt ≤ 15
            ∧ (number.tmod NumberSystem.HEXADECIMAL.toInt).toNat < HEX_DIGITS.length) := by
  obtain ⟨m, rfl⟩ := Int.eq_ofNat_of_zero_le (le_of_lt h)
  have hpos : 0 < m := by exact_mod_cast h
  refine ⟨?_, ?_, ?_⟩
  · rw [decimalToBase_pos r m hpos]
    intro c hc
    rcases List.mem_append.mp hc with hz | hd
    · obtain rfl := List.eq_of_mem_replicate hz
      cases r <;> decide
    · simp only [canonicalDigits, List.mem_map, List.mem_reverse] at hd
      obtain ⟨d, hd, rfl⟩ := hd
      have hlt := Nat.digits_lt_base (one_lt_radix r) hd
      cases r
      · have h2 : d < 2 := hlt
        interval_cases d <;> decide
      · have h8 : d < 8 := hlt
        interval_cases d <;> decide
      · have h16 : d < 16 := hlt
        interval_cases d <;> decide
  · intro d h10 h15
    obtain ⟨k, rfl⟩ := Int.eq_ofNat_of_zero_le (by omega : (0 : Int) ≤ d)
    have hk1 : 10 ≤ k := by exact_mod_cast h10
    have hk2 : k ≤ 15 := by exact_mod_cast h15
    interval_cases k <;> decide
  · intro number hnum
    have h0 : 0 ≤ number.tmod NumberSystem.HEXADECIMAL.toInt :=
      Int.tmod_nonneg _ (le_of_lt hnum)
    have h16 : number.tmod NumberSystem.HEXADECIMAL.toInt < 16 :=
      Int.tmod_lt_of_pos number (by decide)
    have hlen : HEX_DIGITS.length = 16 := by decide
    rw [hlen]
    omega

/-- Instance of C14 at `n = 255`, hexadecimal. -/
theorem decimalToBase_digit_alphabet_witness :
    (0 : Int) < 255
      ∧ (∀ c ∈ (decimalToBase 255 .HEXADECIMAL).value,
          (ch '0' ≤ c ∧ c ≤ ch '9') ∨ (ch 'A' ≤ c ∧ c ≤ ch 'F'))
      ∧ (decimalToBase 255 .HEXADECIMAL).value = lit "FF" :=
  ⟨by decide, (decimalToBase_digit_alphabet 255 .HEXADECIMAL (by decide)).1, by decide⟩

/-- C15 as stated fails: in the octal string `20000000000` the character `2`
stands at the power 10 and `(50 - 48) * 8^10 = 2147483648` is not representable
as an `int`; the contribution stored is `-2147483648`, and so is the result.
Likewise the hexadecimal string `80000000` has the result `-2147483648`. -/
theorem baseToDecimal_contribution_out_of_int_range :
    baseToDecimal.terms (lit "20000000000") .OCTAL
        = [-2147483648, 0, 0, 0, 0, 0, 0, 0, 0, 0, 0]
      ∧ (ch '2' - 48) * NumberSystem.OCTAL.toInt ^ 10 = 2147483648
      ∧ (baseToDecimal.terms (lit "20000000000") .OCTAL).head?
        ≠ some ((ch '2' - 48) * NumberSystem.OCTAL.toInt ^ 10)
      ∧ (baseToDecimal (lit "20000000000") .OCTAL).result = -2147483648
      ∧ (baseToDecimal (lit "80000000") .HEXADECIMAL).result = -2147483648 := by
  decide

/-- C15, amended. No validation in reconstruction: for every string and radix
`baseToDecimal` has a result, the contributions of all characters, one each,
added one after the other; a character `c` at power `p` contributes
`digitValue c * r^p` whenever `r^p` is a finite `double` and the product is
representable as an `int`, so that the result is the sum of these products
when the whole computation stays in range; in hexadecimal the digit value of
every character outside `0`-`9`, `A`-`F`, `a`-`f` is 0, and in binary and octal
the digit value of every character `c` is `c - 48`, valid digit or not; `G`
in hexadecimal gives 0 and `9` in binary gives 9. -/
theorem baseToDecimal_no_validation (s : CString) (r : NumberSystem) :
    (baseToDecimal.terms s r).length = s.length
      ∧ (baseToDecimal s r).result = addAll 0 (baseToDecimal.terms s r)
      ∧ (∀ i, i < s.length → r.toInt ^ (s.length - 1 - i) < DBL_BOUND →
          inIntRange (digitValue r (s.getD i 0) * r.toInt ^ (s.length - 1 - i)) →
          (baseToDecimal.terms s r).getD i 0
            = digitValue r (s.getD i 0) * r.toInt ^ (s.length - 1 - i))
      ∧ (baseToDecimal.inRange s r →
          (baseToDecimal s r).result
            = ((List.range s.length).map
                (fun i => digitValue r (s.getD i 0) * r.toInt ^ (s.length - 1 - i))).sum)
      ∧ (∀ c : CChar,
          ¬ ((ch '0' ≤ c ∧ c ≤ ch '9') ∨ (ch 'A' ≤ c ∧ c ≤ ch 'F') ∨ (ch 'a' ≤ c ∧ c ≤ ch 'f'))
            → digitValue .HEXADECIMAL c = 0)
      ∧ (∀ c : CChar, digitValue .BINARY c = c - 48 ∧ digitValue .OCTAL c = c - 48)
      ∧ (baseToDecimal (lit "G") .HEXADECIMAL).result = 0
      ∧ (baseToDecimal (lit "9") .BINARY).result = 9 := by
  have hterms : baseToDecimal.terms s r
      = (List.range s.length).map (fun i =>
          contribution (digitValue r (s.getD i 0)) r (Int.ofNat (s.length - 1 - i))) := by
    rw [baseToDecimal_terms, machineTerms, positional_eq_map_range]
  refine ⟨?_, (baseToDecimal_closed_form s r).1, ?_, ?_, ?_, fun c => ⟨rfl, rfl⟩, by decide,
    by decide⟩
  · rw [hterms, List.length_map, List.length_range]
  · intro i hi hfin hr
    have hlt : i < ((List.range s.length).map (fun i =>
        contribution (digitValue r (s.getD i 0)) r (Int.ofNat (s.length - 1 - i)))).length := by
      rw [List.length_map, List.length_range]; exact hi
    rw [hterms, List.getD_eq_getElem _ _ hlt, List.getElem_map, List.getElem_range,
      contribution_exact _ r _ hfin hr]
  · intro hin
    rw [(baseToDecimal_exact s r hin).2, placeValues_eq_map_range]
  · intro c hc
    have e0 : ch '0' = 48 := rfl
    have e9 : ch '9' = 57 := rfl
    have eA : ch 'A' = 65 := rfl
    have eF : ch 'F' = 70 := rfl
    have ea : ch 'a' = 97 := rfl
    have ef : ch 'f' = 102 := rfl
    simp only [digitValue, getHexValue, if_true, e0, e9, eA, eF, ea, ef, CChar,
      ge_iff_le] at hc ⊢
    split_ifs <;> omega

/-- Instance of the amended C15 on the binary string `9`: the computation is
in range and the result is the product `9 * 2^0`. -/
theorem baseToDecimal_no_validation_witness :
    baseToDecimal.inRange (lit "9") .BINARY
      ∧ (baseToDecimal (lit "9") .BINARY).result
        = ((List.range (lit "9").length).map
            (fun i => digitValue .BINARY ((lit "9").getD i 0)
              * NumberSystem.BINARY.toInt ^ ((lit "9").length - 1 - i))).sum :=
  ⟨inRange_of_nonneg _ _ (by decide) (by decide) (by decide),
    (baseToDecimal_no_validation (lit "9") .BINARY).2.2.2.1
      (inRange_of_nonneg _ _ (by decide) (by decide) (by decide))⟩

/-- C16 as stated fails: with `k = 255` zeros in front of the hexadecimal
string `41` the first power `16^256` is beyond the range of `double`, and the
result is `-2147483583` while the result on `41` is 65. -/
theorem baseToDecimal_leading_zeros_fail :
    (baseToDecimal (List.replicate 255 (ch '0') ++ lit "41") .HEXADECIMAL).result
        = -2147483583
      ∧ (baseToDecimal (lit "41") .HEXADECIMAL).result = 65
      ∧ (baseToDecimal (List.replicate 255 (ch '0') ++ lit "41") .HEXADECIMAL).result
        ≠ (baseToDecimal (lit "41") .HEXADECIMAL).result := by
  have h41 : (baseToDecimal (lit "41") .HEXADECIMAL).result = 65 := by decide
  refine ⟨long_zeros_41.2, h41, ?_⟩
  rw [long_zeros_41.2, h41]
  decide

/-- C16, amended. Leading zeros are neutral for reconstruction as long as
every power is a finite `double`: for every radix `r`, every string `s` and
every `k` that is 0 or such that `k + |s|` is at most 1024 (binary), 342
(octal) or 256 (hexadecimal), the result of `baseToDecimal` on `k` characters
`0` followed by `s` is its result on `s`, and the zeros keep the computation
in range when it is so on `s`. -/
theorem baseToDecimal_leading_zeros (r : NumberSystem) (s : CString) (k : Nat)
    (hlen : k = 0 ∨ k + s.length ≤ r.maxLength) :
    (baseToDecimal (List.replicate k (ch '0') ++ s) r).result
        = (baseToDecimal s r).result
      ∧ (baseToDecimal.inRange s r
          → baseToDecimal.inRange (List.replicate k (ch '0') ++ s) r) := by
  rcases hlen with rfl | hlen
  · exact ⟨rfl, fun h => h⟩
  · refine ⟨?_, inRange_leading_zeros r k s hlen⟩
    rw [baseToDecimal_result, baseToDecimal_result, machineTerms_zeros_append r s k hlen,
      addAll_replicate_zero k 0 (by decide)]

/-- Instance of the amended C16 on six zeros in front of the hexadecimal
string `41`. -/
theorem baseToDecimal_leading_zeros_witness :
    (6 = 0 ∨ 6 + (lit "41").length ≤ NumberSystem.HEXADECIMAL.maxLength)
      ∧ baseToDecimal.inRange (lit "41") .HEXADECIMAL
      ∧ baseToDecimal.inRange (List.replicate 6 (ch '0') ++ lit "41") .HEXADECIMAL
      ∧ (baseToDecimal (List.replicate 6 (ch '0') ++ lit "41") .HEXADECIMAL).result
        = (baseToDecimal (lit "41") .HEXADECIMAL).result :=
  ⟨Or.inr (by decide), inRange_of_nonneg _ _ (by decide) (by decide) (by decide),
    (baseToDecimal_leading_zeros .HEXADECIMAL (lit "41") 6 (Or.inr (by decide))).2
      (inRange_of_nonneg _ _ (by decide) (by decide) (by decide)),
    (baseToDecimal_leading_zeros .HEXADECIMAL (lit "41") 6 (Or.inr (by decide))).1⟩

/-- C17. Fixed column width for byte codes: for every `n` with
`1 <= n <= 255` the binary value has exactly 8 characters, the octal value
exactly 3 and the hexadecimal value exactly 2. -/
theorem decimalToBase_byte_width (n : Int) (h1 : 1 ≤ n) (h255 : n ≤ 255) :
    (decimalToBase n .BINARY).value.length = 8
      ∧ (decimalToBase n .OCTAL).value.length = 3
      ∧ (decimalToBase n .HEXADECIMAL).value.length = 2 := by
  obtain ⟨m, rfl⟩ := Int.eq_ofNat_of_zero_le (by omega : (0 : Int) ≤ n)
  have hpos : 0 < m := by omega
  have hm : m ≤ 255 := by omega
  have hb := canonicalDigits_length_le .BINARY m 8 hpos
    (by simp only [NumberSystem.radix]; omega)
  have ho := canonicalDigits_length_le .OCTAL m 3 hpos
    (by simp only [NumberSystem.radix]; omega)
  have hh := canonicalDigits_length_le .HEXADECIMAL m 2 hpos
    (by simp only [NumberSystem.radix]; omega)
  simp only [decimalToBase_pos _ m hpos, List.length_append, List.length_replicate,
    NumberSystem.minWidth]
  omega

/-- Instance of C17 at `n = 255`. -/
theorem decimalToBase_byte_width_witness :
    (1 : Int) ≤ 255 ∧ (255 : Int) ≤ 255
      ∧ (decimalToBase 255 .BINARY).value.length = 8
      ∧ (decimalToBase 255 .OCTAL).value.length = 3
      ∧ (decimalToBase 255 .HEXADECIMAL).value.length = 2 :=
  ⟨by decide, by decide, decimalToBase_byte_width 255 (by decide) (by decide)⟩

/-- C18. Negative input is silently mapped to zeros: for every `n < 0` the
division loop of `decimalToBase n r` runs no iteration, the steps are empty
and the value is the minimum width of characters `0` (`00000000`, `000`,
`00`), whose reconstruction is 0 and not `n`; `process` on a character of
negative code records these values. -/
theorem decimalToBase_negative (n : Int) (r : NumberSystem) (h : n < 0) :
    (∀ fuel : Nat, decimalToBase.loop r fuel n [] [] = ([], []))
      ∧ (decimalToBase n r).steps = []
      ∧ (decimalToBase n r).value = List.replicate r.minWidth (ch '0')
      ∧ (decimalToBase n r).value
        = (match r with
            | .BINARY => lit "00000000"
            | .OCTAL => lit "000"
            | .HEXADECIMAL => lit "00")
      ∧ (baseToDecimal (decimalToBase n r).value r).result = 0
      ∧ (baseToDecimal (decimalToBase n r).value r).result ≠ n
      ∧ (process ⟨[n]⟩).decimalValues = [to_string n]
      ∧ (process ⟨[n]⟩).binaryValues = [lit "00000000"]
      ∧ (process ⟨[n]⟩).octalValues = [lit "000"]
      ∧ (process ⟨[n]⟩).hexValues = [lit "00"] := by
  have hres : (baseToDecimal (decimalToBase n r).value r).result = 0 := by
    rw [decimalToBase_neg r n h]
    cases r <;> decide
  have hkeep : [n].filter (fun c => !isSkipped c) = [n] := by
    have hns : isSkipped n = false := by
      have h2 : ¬ (n > 255) := by omega
      simp [isSkipped, h2]
    simp [hns]
  obtain ⟨p1, p2, p3, p4⟩ := process_vectors [n]
  rw [hkeep] at p1 p2 p3 p4
  refine ⟨fun fuel => decimalToBase_loop_nonpos r fuel n (le_of_lt h) [] [], ?_, ?_, ?_, hres,
    ?_, p1, ?_, ?_, ?_⟩
  · rw [decimalToBase_neg r n h]
  · rw [decimalToBase_neg r n h]
  · rw [decimalToBase_neg r n h]
    cases r <;> rfl
  · rw [hres]
    omega
  · rw [p2, List.map_singleton, decimalToBase_neg _ n h]
    rfl
  · rw [p3, List.map_singleton, decimalToBase_neg _ n h]
    rfl
  · rw [p4, List.map_singleton, decimalToBase_neg _ n h]
    rfl

/-- Instance of C18 at `n = -61`, the code of the byte 195 as a signed
`char`. -/
theorem decimalToBase_negative_witness :
    (-61 : Int) < 0
      ∧ (decimalToBase (-61) .BINARY).steps = []
      ∧ (decimalToBase (-61) .BINARY).value = List.replicate NumberSystem.BINARY.minWidth (ch '0')
      ∧ (decimalToBase (-61) .BINARY).value = lit "00000000" :=
  ⟨by decide, (decimalToBase_negative (-61) .BINARY (by decide)).2.1,
    (decimalToBase_negative (-61) .BINARY (by decide)).2.2.1, by decide⟩

end AsciiConverter
